import Mathlib

/-!
Verification of the `dynamic_plan_tree` execution engine.

This development is a shallow embedding of the plan-tree engine found in
`src/dynamic_plan_tree/src/plan.rs`, `behaviour.rs` and `predicate.rs`.
Rust `u32` values are modelled as `Nat` (the only arithmetic performed on
them is the `run_countdown` saturating logic, which never underflows on the
paths the code takes), `f64` utilities are modelled as `Int` (the code only
compares utilities; the `f64::NAN` seed of the `max_utility` fold is
modelled by an `Option Int` accumulator whose `none` compares like NaN),
and the tracing spans emitted around each behaviour callback are modelled
as an explicit event trace: every `Plan::call` invocation appends an
`Event` carrying the span path of the plan and the callback name, exactly
mirroring the `debug_span!(parent: &self.span, "call", func=%name)` in the
source.  The `data` map is carried as an opaque association list; no
engine operation touches it.  `rayon` parallel mode and `serde` are not
modelled (the serial `cfg(not(feature = "rayon"))` branches are the ones
embedded).  Behaviours and predicates are the closed variant sets that the
claims exercise.
-/

namespace DPT

/-- The subset of `predicate.rs`'s `Predicates` variant set used by the
engine paths under verification: the constant predicates and the four
status aggregators. -/
inductive Pred where
  | tru
  | fls
  | allSuccess
  | anySuccess
  | allFailure
  | anyFailure
deriving DecidableEq, Repr

/-- `Transition` from `plan.rs`: move from `src` plans to `dst` plans upon
the predicate's evaluation. -/
structure Transition where
  src : List String
  dst : List String
  predicate : Pred
deriving DecidableEq, Repr

/-- The closed behaviour variant set (from `behaviour.rs` and the
`RunCountBehaviour` test instrumentation in `plan.rs`):
`runCount` counts `on_entry`/`on_exit`/`on_run` invocations,
`setStatus`/`setUtil` are the constant probes used by the repository's
tests, and the remaining constructors are the library composites. -/
inductive Behaviour where
  /-- `RunCountBehaviour` (plan.rs tests): counters, status `None`. -/
  | runCount (entryCount exitCount runCnt : Nat)
  /-- `SetStatusBehaviour` (predicate.rs tests): fixed status. -/
  | setStatus (s : Option Bool)
  /-- `SetUtilBehaviour` (behaviour.rs tests): fixed utility. -/
  | setUtil (u : Int)
  /-- `AllSuccessStatus` from behaviour.rs. -/
  | allSuccessStatus
  /-- `AnySuccessStatus` from behaviour.rs. -/
  | anySuccessStatus
  /-- `SequenceBehaviour(Vec<String>)` from behaviour.rs. -/
  | sequenceB (visited : List String)
  /-- `FallbackBehaviour(Vec<String>)` from behaviour.rs. -/
  | fallbackB (visited : List String)
  /-- `MaxUtilBehaviour` from behaviour.rs. -/
  | maxUtil
  /-- `RepeatBehaviour` from behaviour.rs: boxed inner behaviour, optional
  condition, iteration budget, `retry` flag, private `count_down` and
  `status` fields. -/
  | repeatB (inner : Behaviour) (condition : Option Pred) (iterations : Nat)
      (retry : Bool) (countDown : Nat) (status : Option Bool)
deriving DecidableEq, Repr

/-- A node of the plan tree (`Plan<C>` in plan.rs).  The `span` field of
the source is not stored; span paths are threaded as explicit arguments
and surface in the event trace.  `data` is an opaque association list. -/
inductive Plan where
  | mk (name : String) (runCountdown : Nat) (runInterval : Nat)
      (autostart : Bool) (behaviour : Option Behaviour)
      (transitions : List Transition) (plans : List Plan)
      (data : List (String × String))
deriving Repr

/-- `u32::MAX`, the sentinel for an inactive plan. -/
def u32max : Nat := 4294967295

namespace Plan

def name : Plan → String
  | .mk n _ _ _ _ _ _ _ => n

def runCountdown : Plan → Nat
  | .mk _ c _ _ _ _ _ _ => c

def runInterval : Plan → Nat
  | .mk _ _ i _ _ _ _ _ => i

def autostart : Plan → Bool
  | .mk _ _ _ a _ _ _ _ => a

def behaviour : Plan → Option Behaviour
  | .mk _ _ _ _ b _ _ _ => b

def transitions : Plan → List Transition
  | .mk _ _ _ _ _ t _ _ => t

def plans : Plan → List Plan
  | .mk _ _ _ _ _ _ p _ => p

def data : Plan → List (String × String)
  | .mk _ _ _ _ _ _ _ d => d

/-- `Plan::active`: whether the countdown is below the `u32::MAX`
sentinel. -/
def active (p : Plan) : Bool := p.runCountdown < u32max

def setCountdown : Plan → Nat → Plan
  | .mk n _ i a b t p d, c => .mk n c i a b t p d

def setBehaviour : Plan → Option Behaviour → Plan
  | .mk n c i a _ t p d, b => .mk n c i a b t p d

def setTransitions : Plan → List Transition → Plan
  | .mk n c i a b _ p d, t => .mk n c i a b t p d

def setPlans : Plan → List Plan → Plan
  | .mk n c i a b t _ d, p => .mk n c i a b t p d

@[simp] theorem name_mk (n c i a b t p d) : (Plan.mk n c i a b t p d).name = n := rfl
@[simp] theorem runCountdown_mk (n c i a b t p d) :
    (Plan.mk n c i a b t p d).runCountdown = c := rfl
@[simp] theorem runInterval_mk (n c i a b t p d) :
    (Plan.mk n c i a b t p d).runInterval = i := rfl
@[simp] theorem autostart_mk (n c i a b t p d) :
    (Plan.mk n c i a b t p d).autostart = a := rfl
@[simp] theorem behaviour_mk (n c i a b t p d) :
    (Plan.mk n c i a b t p d).behaviour = b := rfl
@[simp] theorem transitions_mk (n c i a b t p d) :
    (Plan.mk n c i a b t p d).transitions = t := rfl
@[simp] theorem plans_mk (n c i a b t p d) : (Plan.mk n c i a b t p d).plans = p := rfl
@[simp] theorem data_mk (n c i a b t p d) : (Plan.mk n c i a b t p d).data = d := rfl

/-- `Plan::new_stub`: a fresh inactive plan with no behaviour, no
subplans, `run_interval = 0`. -/
def newStub (n : String) (auto : Bool) : Plan :=
  .mk n u32max 0 auto none [] [] []

/-- `Plan::new`: a stub with the given behaviour and run interval. -/
def new (b : Behaviour) (n : String) (interval : Nat) (auto : Bool) : Plan :=
  .mk n u32max interval auto (some b) [] [] []

end Plan

/-- Total-order compare on strings, the embedding of Rust's
`Ord::cmp` on `String` used by `binary_search_by`. -/
def cmpStr (a b : String) : Ordering :=
  if a < b then .lt else if a = b then .eq else .gt

/-- The loop of Rust's `slice::binary_search_by`: `Ok pos` when the
comparator answers `Equal` at `pos`, otherwise `Err` of the insertion
position. -/
def binarySearchLoop (f : α → Ordering) (xs : List α) (left right : Nat) :
    Except Nat Nat :=
  if _h : left < right then
    let mid := left + (right - left) / 2
    match xs[mid]? with
    | none => .error left
    | some x =>
      match f x with
      | .lt => binarySearchLoop f xs (mid + 1) right
      | .gt => binarySearchLoop f xs left mid
      | .eq => .ok mid
  else .error left
termination_by right - left
decreasing_by all_goals omega

/-- Rust `binary_search_by` over the whole list. -/
def binarySearchBy (f : α → Ordering) (xs : List α) : Except Nat Nat :=
  binarySearchLoop f xs 0 xs.length

/-- Auto-generated sizes: a subplan is smaller than its parent. -/
theorem sizeOf_mem_plans {q p : Plan} (h : q ∈ p.plans) : sizeOf q < sizeOf p := by
  cases p with
  | mk n c i a b t ps d =>
    simp only [Plan.plans] at h
    have := List.sizeOf_lt_of_mem h
    simp only [Plan.mk.sizeOf_spec]
    omega

namespace Plan

/-- `Plan::priority`: position of a subplan by binary search on names. -/
def priority (p : Plan) (n : String) : Except Nat Nat :=
  binarySearchBy (fun q => cmpStr q.name n) p.plans

/-- `Plan::get`: reference to a subplan by name. -/
def get (p : Plan) (n : String) : Option Plan :=
  match p.priority n with
  | .ok pos => p.plans[pos]?
  | .error _ => none

theorem mem_of_get {p : Plan} {n : String} {q : Plan} (h : p.get n = some q) :
    q ∈ p.plans := by
  unfold get at h
  cases hp : p.priority n with
  | ok pos => rw [hp] at h; exact List.getElem?_mem h
  | error pos => rw [hp] at h; cases h

end Plan

/-- Auxiliary rank used only by the termination measure of the mutual
status functions: the sequence/fallback variants delegate to the
corresponding status-aggregator variant. -/
def Behaviour.statusRank : Behaviour → Nat
  | .sequenceB _ => 1
  | .fallbackB _ => 1
  | _ => 0

mutual

/-- `Plan::status`: status of the inner behaviour (`None` for a stub). -/
def Plan.status (p : Plan) : Option Bool :=
  match p.behaviour with
  | none => none
  | some b => Behaviour.status b p
termination_by (sizeOf p, 3, 0)
decreasing_by exact Prod.Lex.right _ (Prod.Lex.left _ _ (by omega))

/-- `Behaviour::status` for each variant of the closed set
(behaviour.rs). -/
def Behaviour.status : Behaviour → Plan → Option Bool
  | .runCount _ _ _, _ => none
  | .setStatus s, _ => s
  | .setUtil _, _ => none
  | .allSuccessStatus, p => evaluateStatus p .allSuccess .anyFailure
  | .anySuccessStatus, p => evaluateStatus p .anySuccess .allFailure
  | .sequenceB _, p => Behaviour.status .allSuccessStatus p
  | .fallbackB _, p => Behaviour.status .anySuccessStatus p
  | .maxUtil, p =>
    match _h : p.plans.find? (·.active) with
    | some q => Plan.status q
    | none => none
  | .repeatB _ _ _ _ _ st, _ => st
termination_by b p => (sizeOf p, 2, Behaviour.statusRank b)
decreasing_by
  all_goals
    first
    | exact Prod.Lex.right _ (Prod.Lex.left _ _ (by omega))
    | exact Prod.Lex.right _ (Prod.Lex.right _ (by simp [Behaviour.statusRank]))
    | exact Prod.Lex.left _ _
        (sizeOf_mem_plans (List.mem_of_find?_eq_some (by assumption)))

/-- `evaluate_status` (behaviour.rs): `Some(false)` if the failure
predicate holds, else `Some(true)` if the success predicate holds, else
`None`. -/
def evaluateStatus (p : Plan) (t f : Pred) : Option Bool :=
  if Pred.evaluate f p [] then some false
  else if Pred.evaluate t p [] then some true
  else none
termination_by (sizeOf p, 1, 0)
decreasing_by
  all_goals exact Prod.Lex.right _ (Prod.Lex.left _ _ (by omega))

/-- `Predicate::evaluate` for the embedded variant set (predicate.rs). -/
def Pred.evaluate : Pred → Plan → List String → Bool
  | .tru, _, _ => true
  | .fls, _, _ => false
  | .allSuccess, p, src => allSuccessF p src false
  | .anySuccess, p, src => anySuccessF p src false
  | .allFailure, p, src => !anySuccessF p src true
  | .anyFailure, p, src => !allSuccessF p src true
termination_by pr p src => (sizeOf p, 0, 1)
decreasing_by
  all_goals exact Prod.Lex.right _ (Prod.Lex.right _ (by omega))

/-- `all_success` (predicate.rs): every plan of the effective set has
status `Some(true)`, a `None` status counting as `none_val`. -/
def allSuccessF (p : Plan) (src : List String) (noneVal : Bool) : Bool :=
  if src.isEmpty then
    p.plans.attach.all fun ⟨q, _⟩ => (Plan.status q).getD noneVal
  else
    (src.filterMap p.get).attach.all fun ⟨q, _⟩ => (Plan.status q).getD noneVal
termination_by (sizeOf p, 0, 0)
decreasing_by
  all_goals
    first
    | exact Prod.Lex.left _ _ (sizeOf_mem_plans (by assumption))
    | (rename_i hq
       obtain ⟨n, -, hget⟩ := List.mem_filterMap.mp hq
       exact Prod.Lex.left _ _ (sizeOf_mem_plans (Plan.mem_of_get hget)))

/-- `any_success` (predicate.rs). -/
def anySuccessF (p : Plan) (src : List String) (noneVal : Bool) : Bool :=
  if src.isEmpty then
    p.plans.attach.any fun ⟨q, _⟩ => (Plan.status q).getD noneVal
  else
    (src.filterMap p.get).attach.any fun ⟨q, _⟩ => (Plan.status q).getD noneVal
termination_by (sizeOf p, 0, 0)
decreasing_by
  all_goals
    first
    | exact Prod.Lex.left _ _ (sizeOf_mem_plans (by assumption))
    | (rename_i hq
       obtain ⟨n, -, hget⟩ := List.mem_filterMap.mp hq
       exact Prod.Lex.left _ _ (sizeOf_mem_plans (Plan.mem_of_get hget)))

end

/-- Rank for the termination measure of the mutual utility functions. -/
def Behaviour.utilityRank : Behaviour → Nat
  | .repeatB inner _ _ _ _ _ => Behaviour.utilityRank inner + 1
  | _ => 0

theorem sizeOf_plans_lt (p : Plan) : sizeOf p.plans < sizeOf p := by
  cases p with
  | mk n c i a b t ps d => simp only [Plan.plans, Plan.mk.sizeOf_spec]; omega

mutual

/-- `Plan::utility`: utility of the inner behaviour, `0` for a stub.
Utilities are modelled as `Int` (the engine only ever compares them). -/
def Plan.utility (p : Plan) : Int :=
  match p.behaviour with
  | none => 0
  | some b => Behaviour.utility b p
termination_by (sizeOf p, 2, 0)
decreasing_by exact Prod.Lex.right _ (Prod.Lex.left _ _ (by omega))

/-- `Behaviour::utility` for each variant: `SetUtilBehaviour` returns its
constant, `RepeatBehaviour` forwards to its inner behaviour,
`MaxUtilBehaviour` returns the maximum subplan utility, everything else
uses the trait default `0`. -/
def Behaviour.utility : Behaviour → Plan → Int
  | .setUtil u, _ => u
  | .repeatB inner _ _ _ _ _, p => Behaviour.utility inner p
  | .maxUtil, p =>
    match maxUtility p.plans with
    | some (_, u) => u
    | none => 0
  | _, _ => 0
termination_by b p => (sizeOf p, 1, Behaviour.utilityRank b)
decreasing_by
  all_goals
    first
    | exact Prod.Lex.right _ (Prod.Lex.right _ (by simp only [Behaviour.utilityRank]; omega))
    | exact Prod.Lex.left _ _ (sizeOf_plans_lt _)

/-- `max_utility` (behaviour.rs): fold over the enumerated utilities with
a NaN seed, keeping the accumulator only when it is strictly greater.
The NaN seed is modelled by a `none` accumulator which, like NaN,
compares greater-than as false, so the first element always replaces it.
In the `fold`'s tie case (`max.1 > x.1` false on equality) the current
element wins, so later elements overtake earlier equal ones. -/
def maxUtility (l : List Plan) : Option (Plan × Int) :=
  if l.isEmpty then none
  else
    let us := l.attach.map fun ⟨q, _⟩ => Plan.utility q
    let r := us.enum.foldl
      (fun mx x =>
        match mx.2 with
        | none => (x.1, some x.2)
        | some v => if v > x.2 then mx else (x.1, some x.2))
      ((0 : Nat), (none : Option Int))
    some (l.getD r.1 (Plan.newStub "" false), r.2.getD 0)
termination_by (sizeOf l, 0, 0)
decreasing_by
  exact Prod.Lex.left _ _ (List.sizeOf_lt_of_mem (by assumption))

end

/-- One behaviour-callback invocation, the embedding of the tracing span
`debug_span!(parent: &self.span, "call", func=%name)` entered by
`Plan::call`: `path` is the span path of the plan whose behaviour is
called and `func` is the callback name (`"entry"`, `"exit"`,
`"prepare"` or `"run"`).  `Plan::call` does nothing (and emits no span)
when the behaviour slot is empty. -/
structure Event where
  path : List String
  func : String
deriving DecidableEq, Repr

/-- `Behaviour::on_entry` for the closed set.  `RunCountBehaviour` counts,
`RepeatBehaviour` clears its status, recharges its countdown and enters
its inner behaviour; every other variant uses the trait default.  No
variant of the set touches the plan, so the plan argument is dropped. -/
def Behaviour.onEntry : Behaviour → Behaviour
  | .runCount e x r => .runCount (e + 1) x r
  | .repeatB inner cond iters retry _ _ =>
    .repeatB (Behaviour.onEntry inner) cond iters retry iters none
  | .setStatus s => .setStatus s
  | .setUtil u => .setUtil u
  | .allSuccessStatus => .allSuccessStatus
  | .anySuccessStatus => .anySuccessStatus
  | .sequenceB v => .sequenceB v
  | .fallbackB v => .fallbackB v
  | .maxUtil => .maxUtil

/-- `Behaviour::on_exit` for the closed set. -/
def Behaviour.onExit : Behaviour → Behaviour
  | .runCount e x r => .runCount e (x + 1) r
  | .repeatB inner cond iters retry cd st =>
    .repeatB (Behaviour.onExit inner) cond iters retry cd st
  | .setStatus s => .setStatus s
  | .setUtil u => .setUtil u
  | .allSuccessStatus => .allSuccessStatus
  | .anySuccessStatus => .anySuccessStatus
  | .sequenceB v => .sequenceB v
  | .fallbackB v => .fallbackB v
  | .maxUtil => .maxUtil

/-- `Plan::call` applied to `on_entry`: vacate the behaviour slot, run the
callback, restore the slot.  The callbacks of the closed set leave the
plan untouched during entry, so only the behaviour is transformed and the
call event recorded. -/
def callEntry (π : List String) (p : Plan) : Plan × List Event :=
  match p.behaviour with
  | none => (p, [])
  | some b => (p.setBehaviour (some b.onEntry), [⟨π, "entry"⟩])

/-- `Plan::call` applied to `on_exit`. -/
def callExit (π : List String) (p : Plan) : Plan × List Event :=
  match p.behaviour with
  | none => (p, [])
  | some b => (p.setBehaviour (some b.onExit), [⟨π, "exit"⟩])

/-- `Plan::enter` (plan.rs): no-op returning `false` on an active plan;
otherwise set `run_countdown = 0`, fire `on_entry`, recursively enter
every autostart-flagged inactive subplan, and return `true`.  The span
created from `parent_span` is modelled by the returned event paths. -/
def enterP (parentPath : Option (List String)) (p : Plan) :
    Plan × Bool × List Event :=
  if p.active then (p, false, [])
  else
    let π := parentPath.getD [] ++ [p.name]
    let c := callEntry π (p.setCountdown 0)
    -- `c.1.plans = p.plans`: the countdown update and behaviour call leave
    -- the subplan list untouched, so the recursion ranges over `p.plans`.
    let children := p.plans.attach.map fun ⟨q, _⟩ =>
      if q.autostart && !q.active then (enterP (some π) q).1 else q
    let childEvents := p.plans.attach.map fun ⟨q, _⟩ =>
      if q.autostart && !q.active then (enterP (some π) q).2.2 else []
    (c.1.setPlans children, true, c.2 ++ childEvents.flatten)
termination_by sizeOf p
decreasing_by all_goals exact sizeOf_mem_plans (by assumption)

/-- `Plan::exit` (plan.rs): no-op returning `false` on an inactive plan;
otherwise recursively exit every active subplan, then unless
`exclude_self` fire `on_exit` and reset the countdown to the inactive
sentinel. -/
def exitP (excludeSelf : Bool) (π : List String) (p : Plan) :
    Plan × Bool × List Event :=
  if !p.active then (p, false, [])
  else
    let children := p.plans.attach.map fun ⟨q, _⟩ =>
      if q.active then (exitP false (π ++ [q.name]) q).1 else q
    let childEvents := (p.plans.attach.map fun ⟨q, _⟩ =>
      if q.active then (exitP false (π ++ [q.name]) q).2.2 else []).flatten
    let p₁ := p.setPlans children
    if excludeSelf then (p₁, true, childEvents)
    else
      let c := callExit π p₁
      (c.1.setCountdown u32max, true, childEvents ++ c.2)
termination_by sizeOf p
decreasing_by all_goals exact sizeOf_mem_plans (by assumption)

/-- `Plan::insert` (plan.rs): enter or exit the inserted child according
to the parent's activity and the child's autostart flag, then place it at
its binary-search position, overwriting an existing subplan of the same
name.  (The source also re-homes the tracing span of an already-active
child; spans are not stored here.  The `on_exit` that Rust's `Drop` runs
on an overwritten active subplan is not traced, as no claim observes
it.) -/
def insertP (π : List String) (p : Plan) (child : Plan) :
    Plan × List Event :=
  let ce :=
    if p.active then
      if child.active then (child, ([] : List Event))
      else if child.autostart then
        ((enterP (some π) child).1, (enterP (some π) child).2.2)
      else (child, [])
    else if child.active then
      ((exitP false (π ++ [child.name]) child).1,
        (exitP false (π ++ [child.name]) child).2.2)
    else (child, [])
  match p.priority ce.1.name with
  | .ok pos => (p.setPlans (p.plans.set pos ce.1), ce.2)
  | .error pos => (p.setPlans (p.plans.insertIdx pos ce.1), ce.2)

/-- `Plan::remove`: remove and return the subplan of the given name. -/
def removeP (p : Plan) (n : String) : Plan × Option Plan :=
  match p.priority n with
  | .error _ => (p, none)
  | .ok pos => (p.setPlans (p.plans.eraseIdx pos), p.plans[pos]?)

/-- `Plan::enter_plan` (plan.rs): absence on an inactive plan; otherwise
locate the named subplan (inserting a fresh stub with
`autostart = false` at the binary-search position when missing), enter
it, and return it. -/
def enterPlanF (π : List String) (p : Plan) (n : String) :
    Plan × Option Plan × List Event :=
  if !p.active then (p, none, [])
  else
    let target :=
      match p.priority n with
      | .ok pos => (p.plans, pos)
      | .error pos => (p.plans.insertIdx pos (Plan.newStub n false), pos)
    match target.1[target.2]? with
    | none => (p.setPlans target.1, none, [])
      -- unreachable: a binary-search insertion index is within bounds
    | some q =>
      (p.setPlans (target.1.set target.2 (enterP (some π) q).1),
        some (enterP (some π) q).1, (enterP (some π) q).2.2)

/-- `Plan::exit_plan` (plan.rs): absence when the name is unknown;
otherwise exit the named subplan (a no-op if it is already inactive) and
return it. -/
def exitPlanF (π : List String) (p : Plan) (n : String) :
    Plan × Option Plan × List Event :=
  match p.priority n with
  | .error _ => (p, none, [])
  | .ok pos =>
    match p.plans[pos]? with
    | none => (p, none, [])  -- unreachable: `Ok` positions are in bounds
    | some q =>
      (p.setPlans (p.plans.set pos (exitP false (π ++ [q.name]) q).1),
        some (exitP false (π ++ [q.name]) q).1,
        (exitP false (π ++ [q.name]) q).2.2)

end DPT

namespace DPT

/-- `check_visited_status_and_jump` (behaviour.rs): find the first visited
name whose subplan is present, inactive, and whose status satisfies
`status().map(|s| s == jump_val).unwrap_or(true)`; if found at `pos`,
exit the whole subtree excluding self, re-enter that subplan and truncate
the visited list to `pos`; finally append the currently active subplan's
name unless it already is the last entry. -/
def checkVisited (π : List String) (p : Plan) (visited : List String)
    (jumpVal : Bool) : Plan × List String × List Event :=
  let pos := visited.findIdx? fun x =>
    match p.get x with
    | some q => !q.active && ((Plan.status q).map (· == jumpVal)).getD true
    | none => false
  let jumped :=
    match pos with
    | some i =>
      ((enterPlanF π (exitP true π p).1 (visited.getD i "")).1,
        visited.take i,
        (exitP true π p).2.2 ++
          (enterPlanF π (exitP true π p).1 (visited.getD i "")).2.2)
    | none => (p, visited, [])
  match jumped.1.plans.find? (·.active) with
  | none => jumped
  | some q =>
    if jumped.2.1.getLast? = some q.name then jumped
    else (jumped.1, jumped.2.1 ++ [q.name], jumped.2.2)

/-- `Behaviour::on_prepare` for the closed set.  Sequence and Fallback
run `check_visited_status_and_jump` with `jump_val` `false`/`true`;
MaxUtil transitions to the highest-utility subplan; Repeat gates on its
stored status, countdown and condition before forwarding to its inner
behaviour; every other variant uses the trait default. -/
def Behaviour.onPrepare (b : Behaviour) (π : List String) (p : Plan) :
    Behaviour × Plan × List Event :=
  match b with
  | .sequenceB v =>
    let r := checkVisited π p v false
    (.sequenceB r.2.1, r.1, r.2.2)
  | .fallbackB v =>
    let r := checkVisited π p v true
    (.fallbackB r.2.1, r.1, r.2.2)
  | .maxUtil =>
    match maxUtility p.plans with
    | none => (.maxUtil, p, [])
    | some (bestPlan, _) =>
      let best := bestPlan.name
      match p.plans.find? (·.active) with
      | some ap =>
        if ap.name = best then (.maxUtil, p, [])
        else
          let p₁ := exitPlanF π p ap.name
          let p₂ := enterPlanF π p₁.1 best
          (.maxUtil, p₂.1, p₁.2.2 ++ p₂.2.2)
      | none =>
        let p₂ := enterPlanF π p best
        (.maxUtil, p₂.1, p₂.2.2)
  | .repeatB inner cond iters retry cd st =>
    if st.isSome then (b, p, [])
    else if cd = 0 || !((cond.map fun c => Pred.evaluate c p []).getD true) then
      (.repeatB inner cond iters retry cd (some (!retry)), p, [])
    else
      let r := Behaviour.onPrepare inner π p
      (.repeatB r.1 cond iters retry cd st, r.2.1, r.2.2)
  | .runCount e x r => (.runCount e x r, p, [])
  | .setStatus s => (.setStatus s, p, [])
  | .setUtil u => (.setUtil u, p, [])
  | .allSuccessStatus => (.allSuccessStatus, p, [])
  | .anySuccessStatus => (.anySuccessStatus, p, [])

/-- `Behaviour::on_run` for the closed set.  `RunCountBehaviour` counts;
`RepeatBehaviour`, while its status is indeterminate, forwards to its
inner behaviour and then inspects the inner status: a status equal to
`retry` is stored as the terminal status, a status unequal to `retry`
decrements the countdown (`usize` subtraction, which the engine never
lets underflow) and cycles the inner behaviour through `on_exit` then
`on_entry`.  No variant of the set touches the plan during `on_run`, but
the vacated plan is still threaded for the inner status query. -/
def Behaviour.onRun (b : Behaviour) (p : Plan) : Behaviour × Plan :=
  match b with
  | .runCount e x r => (.runCount e x (r + 1), p)
  | .repeatB inner cond iters retry cd st =>
    if st.isSome then (b, p)
    else
      let r := Behaviour.onRun inner p
      match Behaviour.status r.1 r.2 with
      | some s =>
        if s ≠ retry then
          (.repeatB r.1.onExit.onEntry cond iters retry (cd - 1) st, r.2)
        else (.repeatB r.1 cond iters retry cd (some retry), r.2)
      | none => (.repeatB r.1 cond iters retry cd st, r.2)
  | .setStatus s => (.setStatus s, p)
  | .setUtil u => (.setUtil u, p)
  | .allSuccessStatus => (.allSuccessStatus, p)
  | .anySuccessStatus => (.anySuccessStatus, p)
  | .sequenceB v => (.sequenceB v, p)
  | .fallbackB v => (.fallbackB v, p)
  | .maxUtil => (.maxUtil, p)

/-- `Plan::call` applied to `on_prepare`. -/
def callPrepare (π : List String) (p : Plan) : Plan × List Event :=
  match p.behaviour with
  | none => (p, [])
  | some b =>
    let r := Behaviour.onPrepare b π (p.setBehaviour none)
    (r.2.1.setBehaviour (some r.1), ⟨π, "prepare"⟩ :: r.2.2)

/-- `Plan::call` applied to `on_run`. -/
def callRun (π : List String) (p : Plan) : Plan × List Event :=
  match p.behaviour with
  | none => (p, [])
  | some b =>
    let r := Behaviour.onRun b (p.setBehaviour none)
    (r.2.setBehaviour (some r.1), [⟨π, "run"⟩])

end DPT

namespace DPT

/-- One transition firing (the `for_each` body of `Plan::run`'s transition
pass): `exit_plan` for every `src` name not in `dst`, then `enter_plan`
for every `dst` name not in `src`. -/
def fireTransition (π : List String) (t : Transition) (p : Plan) :
    Plan × List Event :=
  let ex := (t.src.filter fun n => !t.dst.contains n).foldl
    (fun (acc : Plan × List Event) n =>
      ((exitPlanF π acc.1 n).1, acc.2 ++ (exitPlanF π acc.1 n).2.2)) (p, [])
  let en := (t.dst.filter fun n => !t.src.contains n).foldl
    (fun (acc : Plan × List Event) n =>
      ((enterPlanF π acc.1 n).1, acc.2 ++ (enterPlanF π acc.1 n).2.2))
    (ex.1, [])
  (en.1, ex.2 ++ en.2)

/-- The transition pass of `Plan::run`: snapshot the active-subplan name
set, detach the transition list, fire every transition whose `src` names
are all active and whose predicate holds (all predicates are evaluated
against the pre-firing state, as the source collects the firing
transitions before mutating), then reattach the transition list. -/
def transPhase (π : List String) (p : Plan) : Plan × List Event :=
  let activeNames := (p.plans.filter (·.active)).map (·.name)
  let ts := p.transitions
  let pc := p.setTransitions []
  let fired := ts.filter fun t =>
    t.src.all (activeNames.contains ·) && Pred.evaluate t.predicate pc t.src
  let f := fired.foldl
    (fun (acc : Plan × List Event) t =>
      ((fireTransition π t acc.1).1, acc.2 ++ (fireTransition π t acc.1).2))
    (pc, [])
  (f.1.setTransitions ts, f.2)

/-- The `on_prepare` gate of `Plan::run`: the behaviour's `on_prepare`
fires only when `run_interval > 0` and the countdown has elapsed. -/
def prepPhase (π : List String) (p : Plan) : Plan × List Event :=
  if p.runInterval > 0 && p.runCountdown == 0 then callPrepare π p
  else (p, [])

/-- Steps 1-4 of `Plan::run`: self-enter if inactive, transition pass,
gated `on_prepare`. -/
def prePhases (π : List String) (p : Plan) : Plan × List Event :=
  let s₁ := enterP none p
  let s₂ := transPhase π s₁.1
  let s₃ := prepPhase π s₂.1
  (s₃.1, s₁.2.2 ++ s₂.2 ++ s₃.2)

/-- Height of a plan tree (1 for a leaf). -/
def height (p : Plan) : Nat :=
  1 + (p.plans.attach.map fun ⟨q, _⟩ => height q).foldr max 0
termination_by sizeOf p
decreasing_by exact sizeOf_mem_plans (by assumption)

/-- Maximum height of a list of plans (0 for the empty list). -/
def chMax (l : List Plan) : Nat := (l.map height).foldr max 0

theorem height_eq (p : Plan) : height p = 1 + chMax p.plans := by
  rw [height, chMax]
  congr 1
  rw [List.attach_map_val p.plans height]

/-- Whether a plan can spawn fresh stub subplans during its own tick:
only a plan with transitions or a behaviour can. -/
def ind (p : Plan) : Nat :=
  if p.transitions.isEmpty && p.behaviour.isNone then 0 else 1

/-- Termination measure for `run`: dominated by tree height, with a tie
bit that lets a freshly created stub (measure 3) rank strictly below any
plan that could have created it. -/
def mu (p : Plan) : Nat := 3 * height p + ind p

theorem height_le_chMax {q : Plan} {l : List Plan} (h : q ∈ l) :
    height q ≤ chMax l := by
  induction l with
  | nil => cases h
  | cons a l ih =>
    simp only [chMax, List.map_cons, List.foldr_cons]
    rcases List.mem_cons.mp h with h | h
    · subst h; omega
    · have := ih h
      simp only [chMax] at this
      omega

theorem mu_child_lt {q p : Plan} (h : q ∈ p.plans) : mu q < mu p := by
  have h1 : height q ≤ chMax p.plans := height_le_chMax h
  have h2 : ind q ≤ 1 := by unfold ind; split <;> omega
  have h3 : height p = 1 + chMax p.plans := height_eq p
  unfold mu
  omega

end DPT

namespace DPT

/-- Structural strong induction over the plan tree. -/
theorem Plan.inductionOn {motive : Plan → Prop}
    (step : ∀ p, (∀ q ∈ p.plans, motive q) → motive p) (p : Plan) :
    motive p :=
  step p fun q _ => Plan.inductionOn step q
termination_by sizeOf p
decreasing_by exact sizeOf_mem_plans (by assumption)

theorem enterP_of_active {p : Plan} (π : Option (List String))
    (h : p.active = true) : enterP π p = (p, false, []) := by
  rw [enterP]; simp [h]

theorem enterP_fst_of_inactive {p : Plan} (π : Option (List String))
    (h : p.active = false) :
    (enterP π p).1 = Plan.mk p.name 0 p.runInterval p.autostart
      (p.behaviour.map Behaviour.onEntry) p.transitions
      (p.plans.map fun q => if q.autostart && !q.active
        then (enterP (some (π.getD [] ++ [p.name])) q).1 else q) p.data := by
  conv_lhs => rw [enterP]
  cases p with
  | mk n c i a b t ps d =>
    simp only [h, Bool.false_eq_true, if_false, Plan.setCountdown, callEntry,
      Plan.name_mk, Plan.behaviour_mk, Plan.runInterval_mk, Plan.autostart_mk,
      Plan.transitions_mk, Plan.plans_mk, Plan.data_mk]
    cases b with
    | none =>
      simp only [Plan.setPlans, Option.map_none]
      congr 1
      exact List.attach_map_val ps (fun q =>
        if (q.autostart && !q.active) = true
        then (enterP (some (π.getD [] ++ [n])) q).1 else q)
    | some b0 =>
      simp only [Plan.setBehaviour, Plan.setPlans, Option.map_some]
      congr 1
      exact List.attach_map_val ps (fun q =>
        if (q.autostart && !q.active) = true
        then (enterP (some (π.getD [] ++ [n])) q).1 else q)

theorem exitP_of_inactive {p : Plan} (ex : Bool) (π : List String)
    (h : p.active = false) : exitP ex π p = (p, false, []) := by
  rw [exitP]; simp [h]

theorem exitP_fst_excl_of_active {p : Plan} (π : List String)
    (h : p.active = true) :
    (exitP true π p).1 = p.setPlans (p.plans.map fun q =>
      if q.active then (exitP false (π ++ [q.name]) q).1 else q) := by
  conv_lhs => rw [exitP]
  cases p with
  | mk n c i a b t ps d =>
    simp only [h, Bool.not_true, Bool.false_eq_true, if_false, if_true,
      Plan.plans_mk, Plan.setPlans]
    congr 1
    exact List.attach_map_val ps (fun q =>
      if q.active = true then (exitP false (π ++ [q.name]) q).1 else q)

theorem exitP_fst_of_active {p : Plan} (π : List String)
    (h : p.active = true) :
    (exitP false π p).1 = Plan.mk p.name u32max p.runInterval p.autostart
      (p.behaviour.map Behaviour.onExit) p.transitions
      (p.plans.map fun q =>
        if q.active then (exitP false (π ++ [q.name]) q).1 else q) p.data := by
  conv_lhs => rw [exitP]
  cases p with
  | mk n c i a b t ps d =>
    simp only [h, Bool.not_true, Bool.false_eq_true, if_false, Plan.plans_mk,
      Plan.setPlans, callExit]
    cases b with
    | none =>
      simp only [Plan.behaviour_mk, Plan.setCountdown, Option.map_none]
      congr 1
      exact List.attach_map_val ps (fun q =>
        if q.active = true then (exitP false (π ++ [q.name]) q).1 else q)
    | some b0 =>
      simp only [Plan.behaviour_mk, Plan.setBehaviour, Plan.setCountdown,
        Option.map_some]
      congr 1
      exact List.attach_map_val ps (fun q =>
        if q.active = true then (exitP false (π ++ [q.name]) q).1 else q)

end DPT

namespace DPT

theorem chMax_map_congr {l : List Plan} {f : Plan → Plan}
    (h : ∀ q ∈ l, height (f q) = height q) : chMax (l.map f) = chMax l := by
  induction l with
  | nil => rfl
  | cons a l ih =>
    simp only [chMax, List.map_cons, List.foldr_cons] at *
    rw [h a (List.mem_cons_self a l), ih fun q hq => h q (List.mem_cons_of_mem a hq)]

theorem height_enterP (p : Plan) : ∀ π, height (enterP π p).1 = height p := by
  induction p using Plan.inductionOn with
  | step p IH =>
    intro π
    by_cases h : p.active
    · rw [enterP_of_active _ h]
    · rw [enterP_fst_of_inactive _ (by simpa using h)]
      rw [height_eq, height_eq]
      simp only [Plan.plans_mk]
      congr 1
      exact chMax_map_congr fun q hq => by
        split
        · exact IH q hq _
        · rfl

theorem height_exitP (p : Plan) : ∀ ex π, height (exitP ex π p).1 = height p := by
  induction p using Plan.inductionOn with
  | step p IH =>
    intro ex π
    by_cases h : p.active
    · have hch : chMax (p.plans.map fun q =>
          if q.active then (exitP false (π ++ [q.name]) q).1 else q) =
          chMax p.plans := chMax_map_congr fun q hq => by
        split
        · exact IH q hq _ _
        · rfl
      cases ex with
      | true =>
        rw [exitP_fst_excl_of_active _ h]
        cases p with
        | mk n c i a b t ps d =>
          rw [height_eq, height_eq]
          simp only [Plan.setPlans, Plan.plans_mk]
          simp only [Plan.plans_mk] at hch
          rw [hch]
      | false =>
        rw [exitP_fst_of_active _ h]
        rw [height_eq, height_eq]
        simp only [Plan.plans_mk]
        rw [hch]
    · rw [exitP_of_inactive _ _ (by simpa using h)]

theorem enterP_fst_transitions (π : Option (List String)) (p : Plan) :
    (enterP π p).1.transitions = p.transitions := by
  by_cases h : p.active
  · rw [enterP_of_active _ h]
  · rw [enterP_fst_of_inactive _ (by simpa using h)]; simp

theorem enterP_fst_behaviour (π : Option (List String)) (p : Plan) :
    (enterP π p).1.behaviour = if p.active then p.behaviour
      else p.behaviour.map Behaviour.onEntry := by
  by_cases h : p.active
  · rw [enterP_of_active _ h]; simp [h]
  · rw [enterP_fst_of_inactive _ (by simpa using h)]; simp [h]

theorem exitP_fst_transitions (ex : Bool) (π : List String) (p : Plan) :
    (exitP ex π p).1.transitions = p.transitions := by
  by_cases h : p.active
  · cases ex with
    | true =>
      rw [exitP_fst_excl_of_active _ h]
      cases p with
      | mk n c i a b t ps d => simp [Plan.setPlans]
    | false => rw [exitP_fst_of_active _ h]; simp
  · rw [exitP_of_inactive _ _ (by simpa using h)]

theorem exitP_fst_behaviour (ex : Bool) (π : List String) (p : Plan) :
    (exitP ex π p).1.behaviour = if p.active && !ex
      then p.behaviour.map Behaviour.onExit else p.behaviour := by
  by_cases h : p.active
  · cases ex with
    | true =>
      rw [exitP_fst_excl_of_active _ h]
      cases p with
      | mk n c i a b t ps d => simp [Plan.setPlans, h]
    | false => rw [exitP_fst_of_active _ h]; simp [h]
  · rw [exitP_of_inactive _ _ (by simpa using h)]
    simp [show p.active = false by simpa using h]

theorem ind_enterP (π : Option (List String)) (p : Plan) :
    ind (enterP π p).1 = ind p := by
  unfold ind
  rw [enterP_fst_transitions, enterP_fst_behaviour]
  split <;> simp [Option.isNone_map']

theorem ind_exitP (ex : Bool) (π : List String) (p : Plan) :
    ind (exitP ex π p).1 = ind p := by
  unfold ind
  rw [exitP_fst_transitions, exitP_fst_behaviour]
  split <;> simp [Option.isNone_map']

theorem mu_enterP (π : Option (List String)) (p : Plan) :
    mu (enterP π p).1 = mu p := by
  unfold mu; rw [height_enterP, ind_enterP]

theorem mu_exitP (ex : Bool) (π : List String) (p : Plan) :
    mu (exitP ex π p).1 = mu p := by
  unfold mu; rw [height_exitP, ind_exitP]

end DPT

namespace DPT

theorem binarySearchLoop_bounds {α : Type} (f : α → Ordering) (xs : List α)
    (left right : Nat) (hlr : left ≤ right) (hr : right ≤ xs.length) :
    (∀ i, binarySearchLoop f xs left right = .ok i →
      left ≤ i ∧ i < right) ∧
    (∀ j, binarySearchLoop f xs left right = .error j →
      left ≤ j ∧ j ≤ right) := by
  rw [binarySearchLoop]
  by_cases h : left < right
  · simp only [h, dif_pos]
    have hmid : left + (right - left) / 2 < xs.length := by omega
    rw [List.getElem?_eq_getElem hmid]
    rcases hf : f xs[left + (right - left) / 2] with _ | _ | _ <;>
      simp only [hf]
    · have := binarySearchLoop_bounds f xs (left + (right - left) / 2 + 1)
        right (by omega) hr
      constructor
      · intro i hi
        have := this.1 i hi
        omega
      · intro j hj
        have := this.2 j hj
        omega
    · constructor
      · intro i hi
        simp only [Except.ok.injEq] at hi
        omega
      · intro j hj
        simp at hj
    · have := binarySearchLoop_bounds f xs left (left + (right - left) / 2)
        (by omega) (by omega)
      constructor
      · intro i hi
        have := this.1 i hi
        omega
      · intro j hj
        have := this.2 j hj
        omega
  · simp only [h, dif_neg, not_false_iff]
    constructor
    · intro i hi; simp at hi
    · intro j hj
      simp only [Except.error.injEq] at hj
      omega
termination_by right - left
decreasing_by all_goals omega

theorem binarySearchBy_ok_lt {α : Type} {f : α → Ordering} {xs : List α}
    {i : Nat} (h : binarySearchBy f xs = .ok i) : i < xs.length :=
  ((binarySearchLoop_bounds f xs 0 xs.length (Nat.zero_le _) le_rfl).1 i h).2

theorem binarySearchBy_error_le {α : Type} {f : α → Ordering} {xs : List α}
    {j : Nat} (h : binarySearchBy f xs = .error j) : j ≤ xs.length :=
  ((binarySearchLoop_bounds f xs 0 xs.length (Nat.zero_le _) le_rfl).2 j h).2

/-- All members of a list have `mu` below the bound. -/
def MuBound (bd : Nat) (l : List Plan) : Prop := ∀ q ∈ l, mu q < bd

theorem muBound_plans (p : Plan) : MuBound (mu p) p.plans :=
  fun _ hq => mu_child_lt hq

theorem mu_newStub (n : String) (a : Bool) : mu (Plan.newStub n a) = 3 := by
  simp [mu, Plan.newStub, height_eq, chMax, ind]

theorem muBound_enterP {bd : Nat} {p : Plan}
    (h : MuBound bd p.plans) (π : Option (List String)) :
    MuBound bd (enterP π p).1.plans := by
  by_cases ha : p.active
  · rw [enterP_of_active _ ha]; exact h
  · rw [enterP_fst_of_inactive _ (by simpa using ha)]
    simp only [Plan.plans_mk]
    intro q hq
    obtain ⟨q₀, hq₀, rfl⟩ := List.mem_map.mp hq
    split
    · rw [show mu (enterP _ q₀).1 = mu q₀ from mu_enterP _ _]
      exact h q₀ hq₀
    · exact h q₀ hq₀

theorem muBound_exitP {bd : Nat} {p : Plan}
    (h : MuBound bd p.plans) (ex : Bool) (π : List String) :
    MuBound bd (exitP ex π p).1.plans := by
  by_cases ha : p.active
  · have key : ∀ q ∈ p.plans.map fun q =>
        if q.active then (exitP false (π ++ [q.name]) q).1 else q, mu q < bd := by
      intro q hq
      obtain ⟨q₀, hq₀, rfl⟩ := List.mem_map.mp hq
      split
      · rw [show mu (exitP _ _ q₀).1 = mu q₀ from mu_exitP _ _ _]
        exact h q₀ hq₀
      · exact h q₀ hq₀
    cases ex with
    | true =>
      rw [exitP_fst_excl_of_active _ ha]
      cases p with
      | mk n c i a b t ps d =>
        simp only [Plan.setPlans, Plan.plans_mk]
        simp only [Plan.plans_mk] at key
        exact key
    | false =>
      rw [exitP_fst_of_active _ ha]
      simp only [Plan.plans_mk]
      exact key
  · rw [exitP_of_inactive _ _ (by simpa using ha)]; exact h

theorem muBound_exitPlanF {bd : Nat} {p : Plan}
    (h : MuBound bd p.plans) (π : List String) (n : String) :
    MuBound bd (exitPlanF π p n).1.plans := by
  rw [exitPlanF]
  rcases hp : p.priority n with pos | pos <;> simp only [hp]
  · exact h
  · rcases hg : p.plans[pos]? with _ | q <;> simp only [hg]
    · exact h
    · cases p with
      | mk nm c i a b t ps d =>
        simp only [Plan.setPlans, Plan.plans_mk]
        intro q' hq'
        rcases List.mem_or_eq_of_mem_set hq' with hmem | rfl
        · exact h _ hmem
        · rw [show mu (exitP _ _ q).1 = mu q from mu_exitP _ _ _]
          exact h q (List.getElem?_mem hg)

theorem muBound_enterPlanF {bd : Nat} {p : Plan}
    (h : MuBound bd p.plans) (hbd : 4 ≤ bd) (π : List String) (n : String) :
    MuBound bd (enterPlanF π p n).1.plans := by
  rw [enterPlanF]
  by_cases ha : p.active
  · simp only [ha, Bool.not_true, Bool.false_eq_true, if_false]
    rcases hp : p.priority n with pos | pos <;> simp only [hp]
    · -- stub inserted at `pos`, then the element at `pos` entered
      have hle : pos ≤ p.plans.length := binarySearchBy_error_le hp
      have htgt : ∀ q ∈ p.plans.insertIdx pos (Plan.newStub n false),
          mu q < bd := by
        intro q hq
        rcases (List.mem_insertIdx hle).mp hq with rfl | hmem
        · rw [mu_newStub]; omega
        · exact h _ hmem
      rcases hg : (p.plans.insertIdx pos (Plan.newStub n false))[pos]?
          with _ | q <;> simp only [hg]
      · cases p with
        | mk nm c i a b t ps d =>
          simp only [Plan.setPlans, Plan.plans_mk]
          simp only [Plan.plans_mk] at htgt
          exact htgt
      · cases p with
        | mk nm c i a b t ps d =>
          simp only [Plan.setPlans, Plan.plans_mk]
          intro q' hq'
          rcases List.mem_or_eq_of_mem_set hq' with hmem | rfl
          · exact htgt _ hmem
          · rw [show mu (enterP _ q).1 = mu q from mu_enterP _ _]
            exact htgt q (List.getElem?_mem hg)
    · rcases hg : p.plans[pos]? with _ | q <;> simp only [hg]
      · cases p with
        | mk nm c i a b t ps d =>
          simp only [Plan.setPlans, Plan.plans_mk]
          simp only [Plan.plans_mk] at h
          exact h
      · cases p with
        | mk nm c i a b t ps d =>
          simp only [Plan.setPlans, Plan.plans_mk]
          intro q' hq'
          rcases List.mem_or_eq_of_mem_set hq' with hmem | rfl
          · exact h _ hmem
          · rw [show mu (enterP _ q).1 = mu q from mu_enterP _ _]
            exact h q (List.getElem?_mem hg)
  · simp only [show p.active = false by simpa using ha]
    simp only [Bool.not_false, if_true]
    exact h

end DPT

namespace DPT

theorem muBound_foldl_exit {bd : Nat} (π : List String) (l : List String) :
    ∀ acc : Plan × List Event, MuBound bd acc.1.plans →
    MuBound bd (l.foldl (fun (acc : Plan × List Event) n =>
      ((exitPlanF π acc.1 n).1, acc.2 ++ (exitPlanF π acc.1 n).2.2)) acc).1.plans := by
  induction l with
  | nil => intro acc h; exact h
  | cons a l ih =>
    intro acc h
    exact ih _ (muBound_exitPlanF h π a)

theorem muBound_foldl_enter {bd : Nat} (hbd : 4 ≤ bd) (π : List String)
    (l : List String) :
    ∀ acc : Plan × List Event, MuBound bd acc.1.plans →
    MuBound bd (l.foldl (fun (acc : Plan × List Event) n =>
      ((enterPlanF π acc.1 n).1, acc.2 ++ (enterPlanF π acc.1 n).2.2)) acc).1.plans := by
  induction l with
  | nil => intro acc h; exact h
  | cons a l ih =>
    intro acc h
    exact ih _ (muBound_enterPlanF h hbd π a)

theorem muBound_fireTransition {bd : Nat} {p : Plan}
    (h : MuBound bd p.plans) (hbd : 4 ≤ bd) (π : List String)
    (t : Transition) : MuBound bd (fireTransition π t p).1.plans := by
  rw [fireTransition]
  exact muBound_foldl_enter hbd π _ _
    (muBound_foldl_exit π _ _ h)

theorem muBound_foldl_fire {bd : Nat} (hbd : 4 ≤ bd) (π : List String)
    (l : List Transition) :
    ∀ acc : Plan × List Event, MuBound bd acc.1.plans →
    MuBound bd (l.foldl (fun (acc : Plan × List Event) t =>
      ((fireTransition π t acc.1).1, acc.2 ++ (fireTransition π t acc.1).2))
      acc).1.plans := by
  induction l with
  | nil => intro acc h; exact h
  | cons a l ih =>
    intro acc h
    exact ih _ (muBound_fireTransition h hbd π a)

theorem setTransitions_plans (p : Plan) (ts : List Transition) :
    (p.setTransitions ts).plans = p.plans := by
  cases p; rfl

theorem setBehaviour_plans (p : Plan) (b : Option Behaviour) :
    (p.setBehaviour b).plans = p.plans := by
  cases p; rfl

theorem setPlans_plans (p : Plan) (l : List Plan) :
    (p.setPlans l).plans = l := by
  cases p; rfl

theorem setCountdown_plans (p : Plan) (c : Nat) :
    (p.setCountdown c).plans = p.plans := by
  cases p; rfl

theorem muBound_transPhase {bd : Nat} {p : Plan}
    (h : MuBound bd p.plans) (hbd : 4 ≤ bd) (π : List String) :
    MuBound bd (transPhase π p).1.plans := by
  rw [transPhase]
  simp only [setTransitions_plans]
  apply muBound_foldl_fire hbd
  simpa only [setTransitions_plans] using h

theorem muBound_checkVisited {bd : Nat} {p : Plan}
    (h : MuBound bd p.plans) (hbd : 4 ≤ bd) (π : List String)
    (v : List String) (j : Bool) :
    MuBound bd (checkVisited π p v j).1.plans := by
  rw [checkVisited]
  have hj : ∀ jumped : Plan × List String × List Event,
      MuBound bd jumped.1.plans →
      MuBound bd (match jumped.1.plans.find? (fun q : Plan => q.active) with
        | none => jumped
        | some q => if jumped.2.1.getLast? = some q.name then jumped
            else (jumped.1, jumped.2.1 ++ [q.name], jumped.2.2)).1.plans := by
    intro jumped hja
    rcases hf2 : jumped.1.plans.find? (fun q : Plan => q.active) with _ | q <;>
      simp only [hf2]
    · exact hja
    · split <;> exact hja
  apply hj
  rcases hfi : v.findIdx? fun x =>
      match p.get x with
      | some q => !q.active && ((Plan.status q).map (· == j)).getD true
      | none => false with _ | i <;> simp only [hfi]
  · exact h
  · exact muBound_enterPlanF (muBound_exitP h true π) hbd π _

theorem muBound_onPrepare {bd : Nat} (b : Behaviour) :
    ∀ {p : Plan}, MuBound bd p.plans → 4 ≤ bd → ∀ π,
    MuBound bd (Behaviour.onPrepare b π p).2.1.plans := by
  induction b with
  | repeatB inner cond iters retry cd st ih =>
    intro p h hbd π
    rw [Behaviour.onPrepare]
    split
    · exact h
    · split
      · exact h
      · exact ih h hbd π
  | sequenceB v =>
    intro p h hbd π
    rw [Behaviour.onPrepare]
    exact muBound_checkVisited h hbd π v false
  | fallbackB v =>
    intro p h hbd π
    rw [Behaviour.onPrepare]
    exact muBound_checkVisited h hbd π v true
  | maxUtil =>
    intro p h hbd π
    rw [Behaviour.onPrepare]
    rcases hmu : maxUtility p.plans with _ | ⟨bp, u⟩ <;> simp only [hmu]
    · exact h
    · rcases hfa : p.plans.find? (·.active) with _ | ap <;> simp only [hfa]
      · exact muBound_enterPlanF h hbd π _
      · split
        · exact h
        · exact muBound_enterPlanF (muBound_exitPlanF h π _) hbd π _
  | runCount e x r => intro p h hbd π; rw [Behaviour.onPrepare]; exact h
  | setStatus s => intro p h hbd π; rw [Behaviour.onPrepare]; exact h
  | setUtil u => intro p h hbd π; rw [Behaviour.onPrepare]; exact h
  | allSuccessStatus => intro p h hbd π; rw [Behaviour.onPrepare]; exact h
  | anySuccessStatus => intro p h hbd π; rw [Behaviour.onPrepare]; exact h

theorem muBound_callPrepare {bd : Nat} {p : Plan}
    (h : MuBound bd p.plans) (hbd : 4 ≤ bd) (π : List String) :
    MuBound bd (callPrepare π p).1.plans := by
  rw [callPrepare]
  rcases p.behaviour with _ | b
  · exact h
  · simp only [setBehaviour_plans]
    exact muBound_onPrepare b (by simpa only [setBehaviour_plans] using h) hbd π

theorem muBound_prepPhase {bd : Nat} {p : Plan}
    (h : MuBound bd p.plans) (hbd : 4 ≤ bd) (π : List String) :
    MuBound bd (prepPhase π p).1.plans := by
  rw [prepPhase]
  split
  · exact muBound_callPrepare h hbd π
  · exact h

end DPT

namespace DPT

theorem setTransitions_self (p : Plan) : p.setTransitions p.transitions = p := by
  cases p; rfl

theorem transPhase_of_nil {p : Plan} (π : List String)
    (h : p.transitions = []) : transPhase π p = (p, []) := by
  have hs : p.setTransitions [] = p := by
    conv_lhs => rw [← h]
    exact setTransitions_self p
  rw [transPhase, h]
  simp only [List.filter_nil, List.foldl_nil, hs]

theorem prepPhase_of_behaviour_none {p : Plan} (π : List String)
    (h : p.behaviour = none) : prepPhase π p = (p, []) := by
  rw [prepPhase, callPrepare, h]
  split <;> rfl

theorem height_pos (p : Plan) : 1 ≤ height p := by
  rw [height_eq]; omega

theorem prePhases_muBound (π : List String) (p : Plan) :
    MuBound (mu p) (prePhases π p).1.plans := by
  rw [prePhases]
  by_cases hc : p.transitions.isEmpty && p.behaviour.isNone
  · have ht : (enterP none p).1.transitions = [] := by
      rw [enterP_fst_transitions]
      exact List.isEmpty_iff.mp (Bool.and_elim_left hc)
    have hb : (enterP none p).1.behaviour = none := by
      rw [enterP_fst_behaviour]
      have : p.behaviour = none := Option.isNone_iff_eq_none.mp (Bool.and_elim_right hc)
      split <;> simp [this]
    simp only [transPhase_of_nil π ht, prepPhase_of_behaviour_none π hb]
    exact muBound_enterP (muBound_plans p) none
  · have hind : ind p = 1 := by
      unfold ind
      rw [if_neg hc]
    have h4 : 4 ≤ mu p := by
      have := height_pos p
      unfold mu
      omega
    exact muBound_prepPhase
      (muBound_transPhase (muBound_enterP (muBound_plans p) none) h4 π) h4 π

/-- `Plan::run` (plan.rs): one tick.  Self-enter, transition pass, gated
`on_prepare`, stop if the prepare exited this plan, recurse into the
active subplans (serial mode, list order), then the interval-gated
`on_run` followed by the countdown reset and decrement. -/
def runF (π : List String) (p : Plan) : Plan × List Event :=
  let pre := prePhases π p
  if !pre.1.active then pre
  else
    let children := pre.1.plans.attach.map fun ⟨q, _⟩ =>
      if q.active then (runF (π ++ [q.name]) q).1 else q
    let childEvents := (pre.1.plans.attach.map fun ⟨q, _⟩ =>
      if q.active then (runF (π ++ [q.name]) q).2 else []).flatten
    let p₄ := pre.1.setPlans children
    if p₄.runInterval = 0 then (p₄, pre.2 ++ childEvents)
    else
      let gated :=
        if p₄.runCountdown = 0 then
          let c := callRun π p₄
          (c.1.setCountdown c.1.runInterval, pre.2 ++ childEvents ++ c.2)
        else (p₄, pre.2 ++ childEvents)
      (gated.1.setCountdown (gated.1.runCountdown - 1), gated.2)
termination_by mu p
decreasing_by all_goals exact prePhases_muBound π p _ (by assumption)

end DPT

namespace DPT

theorem cmpStr_eq_lt {a b : String} : cmpStr a b = .lt ↔ a < b := by
  unfold cmpStr
  split
  · simp_all
  · split <;> simp_all

theorem cmpStr_eq_eq {a b : String} : cmpStr a b = .eq ↔ a = b := by
  unfold cmpStr
  split
  · constructor
    · intro h; cases h
    · intro h; subst h; simp_all
  · split <;> simp_all

theorem cmpStr_eq_gt {a b : String} : cmpStr a b = .gt ↔ b < a := by
  unfold cmpStr
  by_cases h1 : a < b
  · simp only [if_pos h1]
    constructor
    · intro h; cases h
    · intro h; exact absurd (lt_trans h h1) (lt_irrefl _)
  · by_cases h2 : a = b
    · subst h2
      simp only [if_neg h1, if_pos rfl]
      constructor
      · intro h; cases h
      · intro h; exact absurd h (lt_irrefl _)
    · simp only [if_neg h1, if_neg h2]
      constructor
      · intro _
        rcases lt_trichotomy a b with h | h | h
        · exact absurd h h1
        · exact absurd h h2
        · exact h
      · intro _; trivial

/-- Sorted strictly ascending by the key. -/
def SortedKeys {α : Type} (key : α → String) (l : List α) : Prop :=
  l.Pairwise fun a b => key a < key b

theorem binarySearchLoop_sorted {α : Type} (key : α → String) (n : String)
    (xs : List α) (hs : SortedKeys key xs) (left right : Nat)
    (hr : right ≤ xs.length)
    (hL : ∀ k, (hk : k < xs.length) → k < left → key xs[k] < n)
    (hR : ∀ k, (hk : k < xs.length) → right ≤ k → n < key xs[k]) :
    (∀ i, binarySearchLoop (fun x => cmpStr (key x) n) xs left right = .ok i →
        ∃ (hi : i < xs.length), key xs[i] = n) ∧
    (∀ j, binarySearchLoop (fun x => cmpStr (key x) n) xs left right = .error j →
        (∀ k, (hk : k < xs.length) → k < j → key xs[k] < n) ∧
        (∀ k, (hk : k < xs.length) → j ≤ k → n < key xs[k])) := by
  have hmono : ∀ i j, (hi : i < xs.length) → (hj : j < xs.length) → i < j →
      key xs[i] < key xs[j] := by
    intro i j hi hj hij
    exact List.pairwise_iff_getElem.mp hs i j hi hj hij
  rw [binarySearchLoop]
  by_cases h : left < right
  · simp only [h, dif_pos]
    have hmid : left + (right - left) / 2 < xs.length := by omega
    rw [List.getElem?_eq_getElem hmid]
    rcases hf : cmpStr (key xs[left + (right - left) / 2]) n with _ | _ | _ <;>
      simp only [hf]
    · -- key at mid < n: everything up to mid is < n
      have hkey : key xs[left + (right - left) / 2] < n := cmpStr_eq_lt.mp hf
      have hL' : ∀ k, (hk : k < xs.length) →
          k < left + (right - left) / 2 + 1 → key xs[k] < n := by
        intro k hk hklt
        rcases Nat.lt_or_ge k (left + (right - left) / 2) with h2 | h2
        · exact lt_trans (hmono k _ hk hmid h2) hkey
        · have : k = left + (right - left) / 2 := by omega
          subst this; exact hkey
      exact binarySearchLoop_sorted key n xs hs _ right hr hL' hR
    · -- key at mid = n
      have hkey : key xs[left + (right - left) / 2] = n := cmpStr_eq_eq.mp hf
      constructor
      · intro i hi
        simp only [Except.ok.injEq] at hi
        subst hi
        exact ⟨hmid, hkey⟩
      · intro j hj; simp at hj
    · -- n < key at mid: everything from mid on is > n
      have hkey : n < key xs[left + (right - left) / 2] := cmpStr_eq_gt.mp hf
      have hR' : ∀ k, (hk : k < xs.length) →
          left + (right - left) / 2 ≤ k → n < key xs[k] := by
        intro k hk hkge
        rcases Nat.eq_or_lt_of_le hkge with h2 | h2
        · subst h2; exact hkey
        · exact lt_trans hkey (hmono _ k hmid hk h2)
      exact binarySearchLoop_sorted key n xs hs left _ (by omega) hL hR'
  · simp only [h, dif_neg, not_false_iff]
    constructor
    · intro i hi; simp at hi
    · intro j hj
      simp only [Except.error.injEq] at hj
      subst hj
      refine ⟨hL, fun k hk hge => hR k hk (by omega)⟩
termination_by right - left
decreasing_by all_goals omega

/-- `SortedKeys Plan.name`, the §3 invariant on a subplan list. -/
def SortedNames (l : List Plan) : Prop := SortedKeys Plan.name l

theorem priority_ok {p : Plan} {n : String} {pos : Nat}
    (hs : SortedNames p.plans) (h : p.priority n = .ok pos) :
    ∃ (hp : pos < p.plans.length), p.plans[pos].name = n := by
  have := (binarySearchLoop_sorted Plan.name n p.plans hs 0 p.plans.length
    le_rfl (by omega) (by intro k hk hk0; omega)).1 pos h
  exact this

theorem priority_error {p : Plan} {n : String} {pos : Nat}
    (hs : SortedNames p.plans) (h : p.priority n = .error pos) :
    pos ≤ p.plans.length ∧
    (∀ k, (hk : k < p.plans.length) → k < pos → p.plans[k].name < n) ∧
    (∀ k, (hk : k < p.plans.length) → pos ≤ k → n < p.plans[k].name) := by
  have hb := binarySearchBy_error_le h
  have := (binarySearchLoop_sorted Plan.name n p.plans hs 0 p.plans.length
    le_rfl (by intro k hk hk0; omega) (by intro k hk hk0; omega)).2 pos h
  exact ⟨hb, this.1, this.2⟩

theorem get_eq_some_iff {p : Plan} {n : String} {q : Plan}
    (hs : SortedNames p.plans) :
    p.get n = some q ↔ q ∈ p.plans ∧ q.name = n := by
  constructor
  · intro h
    rw [Plan.get] at h
    rcases hp : p.priority n with pos | pos <;> simp only [hp] at h
    · cases h
    · obtain ⟨hlt, hname⟩ := priority_ok hs hp
      rw [List.getElem?_eq_getElem hlt] at h
      cases h
      exact ⟨List.getElem_mem hlt, hname⟩
  · rintro ⟨hmem, hname⟩
    obtain ⟨k, hk, rfl⟩ := List.mem_iff_getElem.mp hmem
    rw [Plan.get]
    rcases hp : p.priority n with pos | pos <;> simp only [hp]
    · obtain ⟨-, hL, hR⟩ := priority_error hs hp
      rcases Nat.lt_or_ge k pos with h2 | h2
      · exact absurd (hname ▸ hL k hk h2) (lt_irrefl n)
      · exact absurd (hname ▸ hR k hk h2) (lt_irrefl n)
    · obtain ⟨hlt, hnm⟩ := priority_ok hs hp
      rw [List.getElem?_eq_getElem hlt]
      have hmono := List.pairwise_iff_getElem.mp hs
      rcases Nat.lt_trichotomy k pos with h2 | h2 | h2
      · have hx := hmono k pos hk hlt h2
        rw [hname, hnm] at hx
        exact absurd hx (lt_irrefl n)
      · subst h2; rfl
      · have hx := hmono pos k hlt hk h2
        rw [hname, hnm] at hx
        exact absurd hx (lt_irrefl n)

theorem get_eq_none_iff {p : Plan} {n : String}
    (hs : SortedNames p.plans) :
    p.get n = none ↔ ∀ q ∈ p.plans, q.name ≠ n := by
  constructor
  · intro h q hq hname
    have := (get_eq_some_iff hs).mpr ⟨hq, hname⟩
    rw [h] at this; cases this
  · intro h
    rcases hg : p.get n with _ | q
    · rfl
    · obtain ⟨hmem, hname⟩ := (get_eq_some_iff hs).mp hg
      exact absurd hname (h q hmem)

end DPT

namespace DPT

theorem sortedKeys_insertIdx {α : Type} (key : α → String) {l : List α}
    {pos : Nat} {x : α} (hs : SortedKeys key l) (hpos : pos ≤ l.length)
    (hL : ∀ k, (hk : k < l.length) → k < pos → key l[k] < key x)
    (hR : ∀ k, (hk : k < l.length) → pos ≤ k → key x < key l[k]) :
    SortedKeys key (l.insertIdx pos x) := by
  rw [SortedKeys, List.pairwise_iff_getElem]
  intro i j hi hj hij
  rw [List.length_insertIdx _ _ hpos] at hi hj
  have hmono := List.pairwise_iff_getElem.mp hs
  rcases Nat.lt_trichotomy j pos with hj2 | hj2 | hj2
  · -- both before the insertion point
    rw [List.getElem_insertIdx_of_lt l x pos i (by omega) (by omega),
      List.getElem_insertIdx_of_lt l x pos j (by omega) (by omega)]
    exact hmono i j (by omega) (by omega) hij
  · -- j is the inserted element, i before it
    subst hj2
    rw [List.getElem_insertIdx_of_lt l x j i (by omega) (by omega),
      List.getElem_insertIdx_self l x j (by omega)]
    exact hL i (by omega) hij
  · -- j after the insertion point
    obtain ⟨d, rfl⟩ : ∃ d, j = pos + d + 1 := ⟨j - pos - 1, by omega⟩
    rw [List.getElem_insertIdx_add_succ l x pos d (by omega)]
    rcases Nat.lt_trichotomy i pos with hi2 | hi2 | hi2
    · rw [List.getElem_insertIdx_of_lt l x pos i hi2 (by omega)]
      exact hmono i (pos + d) (by omega) (by omega) (by omega)
    · subst hi2
      rw [List.getElem_insertIdx_self l x i (by omega)]
      exact hR (i + d) (by omega) (by omega)
    · obtain ⟨e, rfl⟩ : ∃ e, i = pos + e + 1 := ⟨i - pos - 1, by omega⟩
      rw [List.getElem_insertIdx_add_succ l x pos e (by omega)]
      exact hmono (pos + e) (pos + d) (by omega) (by omega) (by omega)

theorem sortedKeys_set {α : Type} (key : α → String) {l : List α}
    {pos : Nat} {x : α} (hs : SortedKeys key l) (hpos : pos < l.length)
    (hname : key x = key l[pos]) :
    SortedKeys key (l.set pos x) := by
  rw [SortedKeys, List.pairwise_iff_getElem]
  intro i j hi hj hij
  rw [List.length_set] at hi hj
  have hmono := List.pairwise_iff_getElem.mp hs
  rw [List.getElem_set, List.getElem_set]
  split <;> split
  · omega
  · rw [hname]
    exact hmono pos j hpos hj (by omega)
  · rw [hname]
    exact hmono i pos hi hpos (by omega)
  · exact hmono i j hi hj hij

theorem sortedKeys_eraseIdx {α : Type} (key : α → String) {l : List α}
    {pos : Nat} (hs : SortedKeys key l) :
    SortedKeys key (l.eraseIdx pos) :=
  List.Pairwise.sublist (List.eraseIdx_sublist l pos) hs

theorem sortedKeys_map {α : Type} (key : α → String) {l : List α}
    {f : α → α} (hf : ∀ a, key (f a) = key a) (hs : SortedKeys key l) :
    SortedKeys key (l.map f) := by
  refine List.Pairwise.map f ?_ hs
  intro a b hab
  rw [hf, hf]
  exact hab

end DPT

namespace DPT

@[simp] theorem name_setCountdown (p : Plan) (c0 : Nat) :
    (p.setCountdown c0).name = p.name := by cases p; rfl
@[simp] theorem runCountdown_setCountdown (p : Plan) (c0 : Nat) :
    (p.setCountdown c0).runCountdown = c0 := by cases p; rfl
@[simp] theorem runInterval_setCountdown (p : Plan) (c0 : Nat) :
    (p.setCountdown c0).runInterval = p.runInterval := by cases p; rfl
@[simp] theorem autostart_setCountdown (p : Plan) (c0 : Nat) :
    (p.setCountdown c0).autostart = p.autostart := by cases p; rfl
@[simp] theorem behaviour_setCountdown (p : Plan) (c0 : Nat) :
    (p.setCountdown c0).behaviour = p.behaviour := by cases p; rfl
@[simp] theorem transitions_setCountdown (p : Plan) (c0 : Nat) :
    (p.setCountdown c0).transitions = p.transitions := by cases p; rfl
@[simp] theorem plans_setCountdown (p : Plan) (c0 : Nat) :
    (p.setCountdown c0).plans = p.plans := by cases p; rfl
@[simp] theorem data_setCountdown (p : Plan) (c0 : Nat) :
    (p.setCountdown c0).data = p.data := by cases p; rfl
@[simp] theorem name_setBehaviour (p : Plan) (b0 : Option Behaviour) :
    (p.setBehaviour b0).name = p.name := by cases p; rfl
@[simp] theorem runCountdown_setBehaviour (p : Plan) (b0 : Option Behaviour) :
    (p.setBehaviour b0).runCountdown = p.runCountdown := by cases p; rfl
@[simp] theorem runInterval_setBehaviour (p : Plan) (b0 : Option Behaviour) :
    (p.setBehaviour b0).runInterval = p.runInterval := by cases p; rfl
@[simp] theorem autostart_setBehaviour (p : Plan) (b0 : Option Behaviour) :
    (p.setBehaviour b0).autostart = p.autostart := by cases p; rfl
@[simp] theorem behaviour_setBehaviour (p : Plan) (b0 : Option Behaviour) :
    (p.setBehaviour b0).behaviour = b0 := by cases p; rfl
@[simp] theorem transitions_setBehaviour (p : Plan) (b0 : Option Behaviour) :
    (p.setBehaviour b0).transitions = p.transitions := by cases p; rfl
@[simp] theorem plans_setBehaviour (p : Plan) (b0 : Option Behaviour) :
    (p.setBehaviour b0).plans = p.plans := by cases p; rfl
@[simp] theorem data_setBehaviour (p : Plan) (b0 : Option Behaviour) :
    (p.setBehaviour b0).data = p.data := by cases p; rfl
@[simp] theorem name_setTransitions (p : Plan) (t0 : List Transition) :
    (p.setTransitions t0).name = p.name := by cases p; rfl
@[simp] theorem runCountdown_setTransitions (p : Plan) (t0 : List Transition) :
    (p.setTransitions t0).runCountdown = p.runCountdown := by cases p; rfl
@[simp] theorem runInterval_setTransitions (p : Plan) (t0 : List Transition) :
    (p.setTransitions t0).runInterval = p.runInterval := by cases p; rfl
@[simp] theorem autostart_setTransitions (p : Plan) (t0 : List Transition) :
    (p.setTransitions t0).autostart = p.autostart := by cases p; rfl
@[simp] theorem behaviour_setTransitions (p : Plan) (t0 : List Transition) :
    (p.setTransitions t0).behaviour = p.behaviour := by cases p; rfl
@[simp] theorem transitions_setTransitions (p : Plan) (t0 : List Transition) :
    (p.setTransitions t0).transitions = t0 := by cases p; rfl
@[simp] theorem plans_setTransitions (p : Plan) (t0 : List Transition) :
    (p.setTransitions t0).plans = p.plans := by cases p; rfl
@[simp] theorem data_setTransitions (p : Plan) (t0 : List Transition) :
    (p.setTransitions t0).data = p.data := by cases p; rfl
@[simp] theorem name_setPlans (p : Plan) (p0 : List Plan) :
    (p.setPlans p0).name = p.name := by cases p; rfl
@[simp] theorem runCountdown_setPlans (p : Plan) (p0 : List Plan) :
    (p.setPlans p0).runCountdown = p.runCountdown := by cases p; rfl
@[simp] theorem runInterval_setPlans (p : Plan) (p0 : List Plan) :
    (p.setPlans p0).runInterval = p.runInterval := by cases p; rfl
@[simp] theorem autostart_setPlans (p : Plan) (p0 : List Plan) :
    (p.setPlans p0).autostart = p.autostart := by cases p; rfl
@[simp] theorem behaviour_setPlans (p : Plan) (p0 : List Plan) :
    (p.setPlans p0).behaviour = p.behaviour := by cases p; rfl
@[simp] theorem transitions_setPlans (p : Plan) (p0 : List Plan) :
    (p.setPlans p0).transitions = p.transitions := by cases p; rfl
@[simp] theorem plans_setPlans (p : Plan) (p0 : List Plan) :
    (p.setPlans p0).plans = p0 := by cases p; rfl
@[simp] theorem data_setPlans (p : Plan) (p0 : List Plan) :
    (p.setPlans p0).data = p.data := by cases p; rfl

@[simp] theorem active_setPlans (p : Plan) (p0 : List Plan) :
    (p.setPlans p0).active = p.active := by cases p; rfl
@[simp] theorem active_setBehaviour (p : Plan) (b0 : Option Behaviour) :
    (p.setBehaviour b0).active = p.active := by cases p; rfl
@[simp] theorem active_setTransitions (p : Plan) (t0 : List Transition) :
    (p.setTransitions t0).active = p.active := by cases p; rfl

end DPT

namespace DPT

theorem setPlans_self (p : Plan) : p.setPlans p.plans = p := by cases p; rfl

/-- §3 invariant, recursively: every subplan list in the tree is sorted
strictly ascending by name (hence duplicate-free). -/
def Wf (p : Plan) : Prop := SortedNames p.plans ∧ ∀ q ∈ p.plans, Wf q
termination_by sizeOf p
decreasing_by all_goals exact sizeOf_mem_plans (by assumption)

theorem wf_iff (p : Plan) :
    Wf p ↔ SortedNames p.plans ∧ ∀ q ∈ p.plans, Wf q := by
  rw [Wf]

theorem name_enterP (π : Option (List String)) (p : Plan) :
    (enterP π p).1.name = p.name := by
  by_cases h : p.active
  · rw [enterP_of_active _ h]
  · rw [enterP_fst_of_inactive _ (by simpa using h)]; simp

theorem name_exitP (ex : Bool) (π : List String) (p : Plan) :
    (exitP ex π p).1.name = p.name := by
  by_cases h : p.active
  · cases ex with
    | true => rw [exitP_fst_excl_of_active _ h]; simp
    | false => rw [exitP_fst_of_active _ h]; simp
  · rw [exitP_of_inactive _ _ (by simpa using h)]

theorem wf_newStub (n : String) (a : Bool) : Wf (Plan.newStub n a) := by
  rw [wf_iff]
  exact ⟨List.Pairwise.nil, by simp [Plan.newStub]⟩

theorem wf_new (b : Behaviour) (n : String) (i : Nat) (a : Bool) :
    Wf (Plan.new b n i a) := by
  rw [wf_iff]
  exact ⟨List.Pairwise.nil, by simp [Plan.new]⟩

theorem wf_enterP {p : Plan} (h : Wf p) :
    ∀ π, Wf (enterP π p).1 := by
  induction p using Plan.inductionOn with
  | step p IH =>
    intro π
    by_cases ha : p.active
    · rw [enterP_of_active _ ha]; exact h
    · rw [enterP_fst_of_inactive _ (by simpa using ha)]
      rw [wf_iff]
      obtain ⟨hs, hw⟩ := (wf_iff p).mp h
      constructor
      · simp only [Plan.plans_mk]
        refine sortedKeys_map Plan.name (fun a => ?_) hs
        split
        · exact name_enterP _ _
        · rfl
      · simp only [Plan.plans_mk]
        intro q hq
        obtain ⟨q₀, hq₀, rfl⟩ := List.mem_map.mp hq
        split
        · exact IH q₀ hq₀ (hw q₀ hq₀) _
        · exact hw q₀ hq₀

theorem wf_exitP {p : Plan} (h : Wf p) :
    ∀ ex π, Wf (exitP ex π p).1 := by
  induction p using Plan.inductionOn with
  | step p IH =>
    intro ex π
    by_cases ha : p.active
    · obtain ⟨hs, hw⟩ := (wf_iff p).mp h
      have hs' : SortedNames (p.plans.map fun q =>
          if q.active then (exitP false (π ++ [q.name]) q).1 else q) := by
        refine sortedKeys_map Plan.name (fun a => ?_) hs
        split
        · exact name_exitP _ _ _
        · rfl
      have hw' : ∀ q ∈ p.plans.map fun q =>
          if q.active then (exitP false (π ++ [q.name]) q).1 else q, Wf q := by
        intro q hq
        obtain ⟨q₀, hq₀, rfl⟩ := List.mem_map.mp hq
        split
        · exact IH q₀ hq₀ (hw q₀ hq₀) _ _
        · exact hw q₀ hq₀
      cases ex with
      | true =>
        rw [exitP_fst_excl_of_active _ ha, wf_iff]
        simp only [plans_setPlans]
        exact ⟨hs', hw'⟩
      | false =>
        rw [exitP_fst_of_active _ ha, wf_iff]
        simp only [Plan.plans_mk]
        exact ⟨hs', hw'⟩
    · rw [exitP_of_inactive _ _ (by simpa using ha)]; exact h

theorem wf_exitPlanF {p : Plan} (h : Wf p) (π : List String) (n : String) :
    Wf (exitPlanF π p n).1 := by
  rw [exitPlanF]
  rcases hp : p.priority n with pos | pos <;> simp only [hp]
  · exact h
  · rcases hg : p.plans[pos]? with _ | q <;> simp only [hg]
    · exact h
    · obtain ⟨hs, hw⟩ := (wf_iff p).mp h
      have hlt : pos < p.plans.length := by
        by_contra hc
        rw [List.getElem?_eq_none (by omega)] at hg
        cases hg
      have hqe : p.plans[pos] = q := by
        rw [List.getElem?_eq_getElem hlt] at hg
        exact Option.some.inj hg
      rw [wf_iff]
      constructor
      · simp only [plans_setPlans]
        refine sortedKeys_set Plan.name hs hlt ?_
        rw [hqe, name_exitP]
      · simp only [plans_setPlans]
        intro q' hq'
        rcases List.mem_or_eq_of_mem_set hq' with hmem | rfl
        · exact hw _ hmem
        · exact wf_exitP (hw q (hqe ▸ List.getElem_mem hlt)) _ _

theorem wf_enterPlanF {p : Plan} (h : Wf p) (π : List String) (n : String) :
    Wf (enterPlanF π p n).1 := by
  rw [enterPlanF]
  by_cases ha : p.active
  · simp only [ha, Bool.not_true, Bool.false_eq_true, if_false]
    obtain ⟨hs, hw⟩ := (wf_iff p).mp h
    rcases hp : p.priority n with pos | pos <;> simp only [hp]
    · -- missing: stub inserted at the binary-search position
      obtain ⟨hle, hL, hR⟩ := priority_error hs hp
      have hsi : SortedNames (p.plans.insertIdx pos (Plan.newStub n false)) := by
        refine sortedKeys_insertIdx Plan.name hs hle ?_ ?_
        · intro k hk hklt
          simpa [Plan.newStub] using hL k hk hklt
        · intro k hk hkge
          simpa [Plan.newStub] using hR k hk hkge
      have hwi : ∀ q ∈ p.plans.insertIdx pos (Plan.newStub n false), Wf q := by
        intro q hq
        rcases (List.mem_insertIdx hle).mp hq with rfl | hmem
        · exact wf_newStub n false
        · exact hw _ hmem
      have hgi : (p.plans.insertIdx pos (Plan.newStub n false))[pos]? =
          some (Plan.newStub n false) := by
        rw [List.getElem?_eq_getElem
          (by rw [List.length_insertIdx _ _ hle]; omega)]
        rw [List.getElem_insertIdx_self _ _ _ hle]
      have hlen : pos < (p.plans.insertIdx pos (Plan.newStub n false)).length := by
        rw [List.length_insertIdx _ _ hle]; omega
      have heq : (p.plans.insertIdx pos (Plan.newStub n false))[pos] =
          Plan.newStub n false := by
        have h2 := List.getElem?_eq_getElem hlen
        rw [hgi] at h2
        exact (Option.some.inj h2).symm
      rw [hgi]
      rw [wf_iff]
      constructor
      · simp only [plans_setPlans]
        refine sortedKeys_set Plan.name hsi hlen ?_
        rw [name_enterP, heq]
      · simp only [plans_setPlans]
        intro q' hq'
        rcases List.mem_or_eq_of_mem_set hq' with hmem | rfl
        · exact hwi _ hmem
        · exact wf_enterP (hwi _ (List.getElem?_mem hgi)) _
    · -- found at `pos`
      obtain ⟨hlt, hname⟩ := priority_ok hs hp
      rw [List.getElem?_eq_getElem hlt]
      rw [wf_iff]
      constructor
      · simp only [plans_setPlans]
        refine sortedKeys_set Plan.name hs hlt ?_
        rw [name_enterP]
      · simp only [plans_setPlans]
        intro q' hq'
        rcases List.mem_or_eq_of_mem_set hq' with hmem | rfl
        · exact hw _ hmem
        · exact wf_enterP (hw _ (List.getElem_mem hlt)) _
  · simp only [show p.active = false by simpa using ha, Bool.not_false, if_true]
    exact h

end DPT

namespace DPT

theorem name_exitPlanF (π : List String) (p : Plan) (n : String) :
    (exitPlanF π p n).1.name = p.name := by
  rw [exitPlanF]
  cases hp : p.priority n with
  | error pos => simp only [hp]
  | ok pos =>
    simp only [hp]
    rcases hg : p.plans[pos]? with _ | q <;> simp only [hg, name_setPlans]

theorem name_enterPlanF (π : List String) (p : Plan) (n : String) :
    (enterPlanF π p n).1.name = p.name := by
  rw [enterPlanF]
  by_cases ha : p.active
  · simp only [ha, Bool.not_true, Bool.false_eq_true, if_false]
    cases hp : p.priority n with
    | error pos =>
      simp only [hp]
      rcases hg : (p.plans.insertIdx pos (Plan.newStub n false))[pos]?
        with _ | q <;> simp only [hg, name_setPlans]
    | ok pos =>
      simp only [hp]
      rcases hg : p.plans[pos]? with _ | q <;> simp only [hg, name_setPlans]
  · simp only [show p.active = false by simpa using ha, Bool.not_false, if_true]

end DPT

namespace DPT

theorem setPlans_setPlans (p : Plan) (a b : List Plan) :
    (p.setPlans a).setPlans b = p.setPlans b := by cases p; rfl

/-- `q` differs from `p` at most in its subplan list. -/
def PlansOnly (p q : Plan) : Prop := q = p.setPlans q.plans

theorem plansOnly_refl (p : Plan) : PlansOnly p p := (setPlans_self p).symm

theorem plansOnly_setPlans (p : Plan) (l : List Plan) :
    PlansOnly p (p.setPlans l) := by
  rw [PlansOnly, plans_setPlans]

theorem plansOnly_trans {p q r : Plan} (h1 : PlansOnly p q)
    (h2 : PlansOnly q r) : PlansOnly p r := by
  rw [PlansOnly] at *
  rw [h2, h1, setPlans_setPlans, plans_setPlans]

theorem PlansOnly.fields {p q : Plan} (h : PlansOnly p q) :
    q.name = p.name ∧ q.runCountdown = p.runCountdown ∧
    q.runInterval = p.runInterval ∧ q.autostart = p.autostart ∧
    q.behaviour = p.behaviour ∧ q.transitions = p.transitions ∧
    q.data = p.data := by
  rw [PlansOnly] at h
  rw [h]
  simp

theorem plansOnly_exitPlanF (π : List String) (p : Plan) (n : String) :
    PlansOnly p (exitPlanF π p n).1 := by
  rw [exitPlanF]
  cases hp : p.priority n with
  | error pos => exact plansOnly_refl p
  | ok pos =>
    simp only
    rcases hg : p.plans[pos]? with _ | q <;> simp only [hg]
    · exact plansOnly_refl p
    · exact plansOnly_setPlans p _

theorem plansOnly_enterPlanF (π : List String) (p : Plan) (n : String) :
    PlansOnly p (enterPlanF π p n).1 := by
  rw [enterPlanF]
  by_cases ha : p.active
  · simp only [ha, Bool.not_true, Bool.false_eq_true, if_false]
    cases hp : p.priority n with
    | error pos =>
      simp only
      rcases hg : (p.plans.insertIdx pos (Plan.newStub n false))[pos]?
        with _ | q <;> simp only [hg]
      · exact plansOnly_setPlans p _
      · exact plansOnly_setPlans p _
    | ok pos =>
      simp only
      rcases hg : p.plans[pos]? with _ | q <;> simp only [hg]
      · exact plansOnly_setPlans p _
      · exact plansOnly_setPlans p _
  · simp only [show p.active = false by simpa using ha, Bool.not_false, if_true]
    exact plansOnly_refl p

theorem plansOnly_foldl_exit (π : List String) (l : List String) :
    ∀ acc : Plan × List Event,
    PlansOnly acc.1 (l.foldl (fun (acc : Plan × List Event) n =>
      ((exitPlanF π acc.1 n).1, acc.2 ++ (exitPlanF π acc.1 n).2.2)) acc).1 := by
  induction l with
  | nil => intro acc; exact plansOnly_refl _
  | cons a l ih =>
    intro acc
    exact plansOnly_trans (plansOnly_exitPlanF π acc.1 a) (ih _)

theorem plansOnly_foldl_enter (π : List String) (l : List String) :
    ∀ acc : Plan × List Event,
    PlansOnly acc.1 (l.foldl (fun (acc : Plan × List Event) n =>
      ((enterPlanF π acc.1 n).1, acc.2 ++ (enterPlanF π acc.1 n).2.2)) acc).1 := by
  induction l with
  | nil => intro acc; exact plansOnly_refl _
  | cons a l ih =>
    intro acc
    exact plansOnly_trans (plansOnly_enterPlanF π acc.1 a) (ih _)

theorem plansOnly_fireTransition (π : List String) (t : Transition)
    (p : Plan) : PlansOnly p (fireTransition π t p).1 := by
  rw [fireTransition]
  exact plansOnly_trans (plansOnly_foldl_exit π _ _)
    (plansOnly_foldl_enter π _ _)

theorem plansOnly_foldl_fire (π : List String) (l : List Transition) :
    ∀ acc : Plan × List Event,
    PlansOnly acc.1 (l.foldl (fun (acc : Plan × List Event) t =>
      ((fireTransition π t acc.1).1, acc.2 ++ (fireTransition π t acc.1).2))
      acc).1 := by
  induction l with
  | nil => intro acc; exact plansOnly_refl _
  | cons a l ih =>
    intro acc
    exact plansOnly_trans (plansOnly_fireTransition π a acc.1) (ih _)

theorem plansOnly_transPhase (π : List String) (p : Plan) :
    PlansOnly p (transPhase π p).1 := by
  rw [transPhase]
  have h1 := plansOnly_foldl_fire π
    ((p.transitions).filter fun t =>
      t.src.all ((((p.plans.filter (·.active)).map (·.name))).contains ·) &&
        Pred.evaluate t.predicate (p.setTransitions []) t.src)
    ((p.setTransitions []), [])
  rw [PlansOnly] at h1 ⊢
  simp only [plans_setTransitions, transitions_setTransitions] at *
  rw [h1]
  cases p
  rfl

theorem plansOnly_checkVisited (π : List String) (p : Plan)
    (v : List String) (j : Bool) :
    PlansOnly p (checkVisited π p v j).1 := by
  rw [checkVisited]
  have hj : ∀ jumped : Plan × List String × List Event,
      PlansOnly p jumped.1 →
      PlansOnly p (match jumped.1.plans.find? (fun q : Plan => q.active) with
        | none => jumped
        | some q => if jumped.2.1.getLast? = some q.name then jumped
            else (jumped.1, jumped.2.1 ++ [q.name], jumped.2.2)).1 := by
    intro jumped hja
    rcases hf2 : jumped.1.plans.find? (fun q : Plan => q.active) with _ | q <;>
      simp only [hf2]
    · exact hja
    · split <;> exact hja
  apply hj
  rcases hfi : v.findIdx? fun x =>
      match p.get x with
      | some q => !q.active && ((Plan.status q).map (· == j)).getD true
      | none => false with _ | i <;> simp only [hfi]
  · exact plansOnly_refl p
  · refine plansOnly_trans ?_ (plansOnly_enterPlanF π _ _)
    by_cases ha : p.active
    · rw [exitP_fst_excl_of_active π ha]
      exact plansOnly_setPlans p _
    · rw [exitP_of_inactive _ _ (by simpa using ha)]
      exact plansOnly_refl p

theorem plansOnly_onPrepare (b : Behaviour) (π : List String) (p : Plan) :
    PlansOnly p (Behaviour.onPrepare b π p).2.1 := by
  induction b generalizing p with
  | repeatB inner cond iters retry cd st ih =>
    rw [Behaviour.onPrepare]
    split
    · exact plansOnly_refl p
    · split
      · exact plansOnly_refl p
      · exact ih p
  | sequenceB v => rw [Behaviour.onPrepare]; exact plansOnly_checkVisited π p v false
  | fallbackB v => rw [Behaviour.onPrepare]; exact plansOnly_checkVisited π p v true
  | maxUtil =>
    rw [Behaviour.onPrepare]
    rcases hmu : maxUtility p.plans with _ | ⟨bp, u⟩ <;> simp only [hmu]
    · exact plansOnly_refl p
    · rcases hfa : p.plans.find? (·.active) with _ | ap <;> simp only [hfa]
      · exact plansOnly_enterPlanF π p _
      · split
        · exact plansOnly_refl p
        · exact plansOnly_trans (plansOnly_exitPlanF π p _)
            (plansOnly_enterPlanF π _ _)
  | runCount e x r => rw [Behaviour.onPrepare]; exact plansOnly_refl p
  | setStatus s => rw [Behaviour.onPrepare]; exact plansOnly_refl p
  | setUtil u => rw [Behaviour.onPrepare]; exact plansOnly_refl p
  | allSuccessStatus => rw [Behaviour.onPrepare]; exact plansOnly_refl p
  | anySuccessStatus => rw [Behaviour.onPrepare]; exact plansOnly_refl p

/-- `Behaviour::on_run` never mutates the plan in the closed set. -/
theorem onRun_plan_eq (b : Behaviour) (p : Plan) :
    (Behaviour.onRun b p).2 = p := by
  induction b generalizing p with
  | repeatB inner cond iters retry cd st ih =>
    rw [Behaviour.onRun]
    split
    · rfl
    · rcases h2 : Behaviour.status (Behaviour.onRun inner p).1
        (Behaviour.onRun inner p).2 with _ | s <;> simp only [h2]
      · exact ih p
      · split <;> exact ih p
  | runCount e x r => rfl
  | setStatus s => rfl
  | setUtil u => rfl
  | allSuccessStatus => rfl
  | anySuccessStatus => rfl
  | sequenceB v => rfl
  | fallbackB v => rfl
  | maxUtil => rfl

end DPT

namespace DPT

theorem wf_setTransitions (p : Plan) (ts : List Transition) :
    Wf (p.setTransitions ts) ↔ Wf p := by
  rw [wf_iff, wf_iff]
  simp

theorem wf_setBehaviour (p : Plan) (b : Option Behaviour) :
    Wf (p.setBehaviour b) ↔ Wf p := by
  rw [wf_iff, wf_iff]
  simp

theorem wf_setCountdown (p : Plan) (c : Nat) :
    Wf (p.setCountdown c) ↔ Wf p := by
  rw [wf_iff, wf_iff]
  simp

theorem wf_foldl_exit (π : List String) (l : List String) :
    ∀ acc : Plan × List Event, Wf acc.1 →
    Wf (l.foldl (fun (acc : Plan × List Event) n =>
      ((exitPlanF π acc.1 n).1, acc.2 ++ (exitPlanF π acc.1 n).2.2)) acc).1 := by
  induction l with
  | nil => intro acc h; exact h
  | cons a l ih => intro acc h; exact ih _ (wf_exitPlanF h π a)

theorem wf_foldl_enter (π : List String) (l : List String) :
    ∀ acc : Plan × List Event, Wf acc.1 →
    Wf (l.foldl (fun (acc : Plan × List Event) n =>
      ((enterPlanF π acc.1 n).1, acc.2 ++ (enterPlanF π acc.1 n).2.2)) acc).1 := by
  induction l with
  | nil => intro acc h; exact h
  | cons a l ih => intro acc h; exact ih _ (wf_enterPlanF h π a)

theorem wf_fireTransition {p : Plan} (h : Wf p) (π : List String)
    (t : Transition) : Wf (fireTransition π t p).1 := by
  rw [fireTransition]
  exact wf_foldl_enter π _ _ (wf_foldl_exit π _ _ h)

theorem wf_foldl_fire (π : List String) (l : List Transition) :
    ∀ acc : Plan × List Event, Wf acc.1 →
    Wf (l.foldl (fun (acc : Plan × List Event) t =>
      ((fireTransition π t acc.1).1, acc.2 ++ (fireTransition π t acc.1).2))
      acc).1 := by
  induction l with
  | nil => intro acc h; exact h
  | cons a l ih => intro acc h; exact ih _ (wf_fireTransition h π a)

theorem wf_transPhase {p : Plan} (h : Wf p) (π : List String) :
    Wf (transPhase π p).1 := by
  rw [transPhase]
  rw [wf_setTransitions]
  exact wf_foldl_fire π _ _ ((wf_setTransitions p []).mpr h)

theorem wf_checkVisited {p : Plan} (h : Wf p) (π : List String)
    (v : List String) (j : Bool) : Wf (checkVisited π p v j).1 := by
  rw [checkVisited]
  have hj : ∀ jumped : Plan × List String × List Event, Wf jumped.1 →
      Wf (match jumped.1.plans.find? (fun q : Plan => q.active) with
        | none => jumped
        | some q => if jumped.2.1.getLast? = some q.name then jumped
            else (jumped.1, jumped.2.1 ++ [q.name], jumped.2.2)).1 := by
    intro jumped hja
    rcases hf2 : jumped.1.plans.find? (fun q : Plan => q.active) with _ | q <;>
      simp only [hf2]
    · exact hja
    · split <;> exact hja
  apply hj
  rcases hfi : v.findIdx? fun x =>
      match p.get x with
      | some q => !q.active && ((Plan.status q).map (· == j)).getD true
      | none => false with _ | i <;> simp only [hfi]
  · exact h
  · exact wf_enterPlanF (wf_exitP h true π) π _

theorem wf_onPrepare {p : Plan} (b : Behaviour) (h : Wf p) (π : List String) :
    Wf (Behaviour.onPrepare b π p).2.1 := by
  induction b generalizing p with
  | repeatB inner cond iters retry cd st ih =>
    rw [Behaviour.onPrepare]
    split
    · exact h
    · split
      · exact h
      · exact ih h
  | sequenceB v => rw [Behaviour.onPrepare]; exact wf_checkVisited h π v false
  | fallbackB v => rw [Behaviour.onPrepare]; exact wf_checkVisited h π v true
  | maxUtil =>
    rw [Behaviour.onPrepare]
    rcases hmu : maxUtility p.plans with _ | ⟨bp, u⟩ <;> simp only [hmu]
    · exact h
    · rcases hfa : p.plans.find? (·.active) with _ | ap <;> simp only [hfa]
      · exact wf_enterPlanF h π _
      · split
        · exact h
        · exact wf_enterPlanF (wf_exitPlanF h π _) π _
  | runCount e x r => rw [Behaviour.onPrepare]; exact h
  | setStatus s => rw [Behaviour.onPrepare]; exact h
  | setUtil u => rw [Behaviour.onPrepare]; exact h
  | allSuccessStatus => rw [Behaviour.onPrepare]; exact h
  | anySuccessStatus => rw [Behaviour.onPrepare]; exact h

theorem wf_callPrepare {p : Plan} (h : Wf p) (π : List String) :
    Wf (callPrepare π p).1 := by
  rw [callPrepare]
  rcases hb : p.behaviour with _ | b <;> simp only [hb]
  · exact h
  · rw [wf_setBehaviour]
    exact wf_onPrepare b ((wf_setBehaviour p none).mpr h) π

theorem wf_prepPhase {p : Plan} (h : Wf p) (π : List String) :
    Wf (prepPhase π p).1 := by
  rw [prepPhase]
  split
  · exact wf_callPrepare h π
  · exact h

theorem wf_prePhases {p : Plan} (h : Wf p) (π : List String) :
    Wf (prePhases π p).1 := by
  rw [prePhases]
  exact wf_prepPhase (wf_transPhase (wf_enterP h none) π) π

theorem wf_callRun {p : Plan} (h : Wf p) (π : List String) :
    Wf (callRun π p).1 := by
  rw [callRun]
  rcases hb : p.behaviour with _ | b <;> simp only [hb]
  · exact h
  · rw [onRun_plan_eq, wf_setBehaviour, wf_setBehaviour]
    exact h

theorem name_callPrepare (π : List String) (p : Plan) :
    (callPrepare π p).1.name = p.name := by
  rw [callPrepare]
  rcases hb : p.behaviour with _ | b <;> simp only [hb]
  rw [name_setBehaviour]
  have := (plansOnly_onPrepare b π (p.setBehaviour none)).fields.1
  rw [this, name_setBehaviour]

theorem name_prepPhase (π : List String) (p : Plan) :
    (prepPhase π p).1.name = p.name := by
  rw [prepPhase]
  split
  · exact name_callPrepare π p
  · rfl

theorem name_transPhase (π : List String) (p : Plan) :
    (transPhase π p).1.name = p.name :=
  (plansOnly_transPhase π p).fields.1

theorem name_prePhases (π : List String) (p : Plan) :
    (prePhases π p).1.name = p.name := by
  rw [prePhases]
  simp only
  rw [name_prepPhase, name_transPhase, name_enterP]

theorem countdown_callPrepare (π : List String) (p : Plan) :
    (callPrepare π p).1.runCountdown = p.runCountdown := by
  rw [callPrepare]
  rcases hb : p.behaviour with _ | b <;> simp only [hb]
  rw [runCountdown_setBehaviour]
  have := (plansOnly_onPrepare b π (p.setBehaviour none)).fields.2.1
  rw [this, runCountdown_setBehaviour]

theorem countdown_prepPhase (π : List String) (p : Plan) :
    (prepPhase π p).1.runCountdown = p.runCountdown := by
  rw [prepPhase]
  split
  · exact countdown_callPrepare π p
  · rfl

theorem interval_callPrepare (π : List String) (p : Plan) :
    (callPrepare π p).1.runInterval = p.runInterval := by
  rw [callPrepare]
  rcases hb : p.behaviour with _ | b <;> simp only [hb]
  rw [runInterval_setBehaviour]
  have := (plansOnly_onPrepare b π (p.setBehaviour none)).fields.2.2.1
  rw [this, runInterval_setBehaviour]

theorem interval_prepPhase (π : List String) (p : Plan) :
    (prepPhase π p).1.runInterval = p.runInterval := by
  rw [prepPhase]
  split
  · exact interval_callPrepare π p
  · rfl

theorem countdown_enterP (π : Option (List String)) (p : Plan) :
    (enterP π p).1.runCountdown = if p.active then p.runCountdown else 0 := by
  by_cases h : p.active
  · rw [enterP_of_active _ h]; simp [h]
  · rw [enterP_fst_of_inactive _ (by simpa using h)]; simp [h]

theorem interval_enterP (π : Option (List String)) (p : Plan) :
    (enterP π p).1.runInterval = p.runInterval := by
  by_cases h : p.active
  · rw [enterP_of_active _ h]
  · rw [enterP_fst_of_inactive _ (by simpa using h)]; simp

theorem interval_prePhases (π : List String) (p : Plan) :
    (prePhases π p).1.runInterval = p.runInterval := by
  rw [prePhases]
  simp only
  rw [interval_prepPhase, (plansOnly_transPhase π _).fields.2.2.1,
    interval_enterP]

theorem active_prePhases (π : List String) (p : Plan) :
    (prePhases π p).1.active = true := by
  rw [prePhases]
  simp only
  rw [Plan.active]
  rw [countdown_prepPhase, (plansOnly_transPhase π _).fields.2.1,
    countdown_enterP]
  by_cases h : p.active
  · simp only [h, if_true]
    simpa [Plan.active] using h
  · simp only [h, if_false]
    simp [u32max]

end DPT

namespace DPT

theorem name_callRun (π : List String) (p : Plan) :
    (callRun π p).1.name = p.name := by
  rw [callRun]
  rcases hb : p.behaviour with _ | b <;> simp only [hb]
  rw [onRun_plan_eq, name_setBehaviour, name_setBehaviour]

theorem countdown_setCountdown_self (p : Plan) (c : Nat) :
    (p.setCountdown c).runCountdown = c := by cases p; rfl

theorem name_runF (π : List String) (p : Plan) :
    (runF π p).1.name = p.name := by
  rw [runF]
  by_cases hact : (prePhases π p).1.active = true
  · simp only [hact, Bool.not_true, Bool.false_eq_true, if_false]
    split
    · rw [name_setPlans, name_prePhases]
    · split <;> simp only [name_setCountdown]
      · rw [name_callRun, name_setPlans, name_prePhases]
      · rw [name_setPlans, name_prePhases]
  · simp only [show (prePhases π p).1.active = false by simpa using hact,
      Bool.not_false, if_true]
    exact name_prePhases π p

theorem wf_runF (p : Plan) (h : Wf p) (π : List String) : Wf (runF π p).1 := by
  rw [runF]
  by_cases hact : (prePhases π p).1.active = true
  · simp only [hact, Bool.not_true, Bool.false_eq_true, if_false]
    have h3 := wf_prePhases h π
    obtain ⟨hs3, hw3⟩ := (wf_iff _).mp h3
    have hmap : ((prePhases π p).1.plans.attach.map fun x =>
        if x.1.active then (runF (π ++ [x.1.name]) x.1).1 else x.1) =
        (prePhases π p).1.plans.map fun q =>
          if q.active then (runF (π ++ [q.name]) q).1 else q :=
      List.attach_map_val _ (fun q : Plan =>
        if q.active then (runF (π ++ [q.name]) q).1 else q)
    have hchild : Wf ((prePhases π p).1.setPlans
        ((prePhases π p).1.plans.attach.map fun x =>
          if x.1.active then (runF (π ++ [x.1.name]) x.1).1 else x.1)) := by
      rw [wf_iff, plans_setPlans, hmap]
      constructor
      · refine sortedKeys_map Plan.name (fun a => ?_) hs3
        split
        · exact name_runF _ _
        · rfl
      · intro q' hq'
        obtain ⟨q₀, hq₀, rfl⟩ := List.mem_map.mp hq'
        split
        · exact wf_runF q₀ (hw3 q₀ hq₀) _
        · exact hw3 q₀ hq₀
    split
    · exact hchild
    · split
      · rw [wf_setCountdown, wf_setCountdown]
        exact wf_callRun hchild π
      · rw [wf_setCountdown]
        exact hchild
  · simp only [show (prePhases π p).1.active = false by simpa using hact,
      Bool.not_false, if_true]
    exact wf_prePhases h π
termination_by mu p
decreasing_by exact prePhases_muBound π p _ hq₀

end DPT

namespace DPT

theorem status_of_behaviour_none {p : Plan} (h : p.behaviour = none) :
    Plan.status p = none := by
  rw [Plan.status, h]

theorem status_of_setStatus {p : Plan} {s : Option Bool}
    (h : p.behaviour = some (.setStatus s)) : Plan.status p = s := by
  rw [Plan.status]
  simp only [h]
  rw [Behaviour.status.eq_def]

theorem all_attach_eq (l : List Plan) (g : Plan → Bool) :
    (l.attach.all fun x => g x.1) = l.all g := by
  rcases hb : l.all g with _ | _
  · rw [List.all_eq_false] at hb ⊢
    obtain ⟨x, hx, hgx⟩ := hb
    exact ⟨⟨x, hx⟩, List.mem_attach l _, hgx⟩
  · rw [List.all_eq_true] at hb ⊢
    intro x _
    exact hb x.1 x.2

/-- C8: `enter` on an active plan returns `false` and leaves the whole
plan (countdown, behaviour, transitions, subplans, data) unchanged, with
no callback fired; `exit` on an inactive plan likewise. -/
theorem c8_enter_active_exit_inactive_noop :
    (∀ (p : Plan) (π : Option (List String)), p.active = true →
      enterP π p = (p, false, [])) ∧
    (∀ (p : Plan) (ex : Bool) (π : List String), p.active = false →
      exitP ex π p = (p, false, [])) :=
  ⟨fun _ π h => enterP_of_active π h, fun _ ex π h => exitP_of_inactive ex π h⟩

theorem c8_witness :
    (Plan.mk "a" 0 1 false none [] [] []).active = true ∧
    (Plan.newStub "b" false).active = false ∧
    enterP none (Plan.mk "a" 0 1 false none [] [] []) =
      (Plan.mk "a" 0 1 false none [] [] [], false, []) ∧
    exitP false [] (Plan.newStub "b" false) =
      (Plan.newStub "b" false, false, []) :=
  ⟨rfl, rfl,
    c8_enter_active_exit_inactive_noop.1 _ none rfl,
    c8_enter_active_exit_inactive_noop.2 _ false [] rfl⟩

end DPT

namespace DPT

/-- Concrete input refuting C5's "None counted as failure": a single
subplan whose status is `None`. -/
def c5cex : Plan :=
  Plan.mk "r" 0 0 false none []
    [Plan.mk "a" u32max 0 false (some (.setStatus none)) [] [] []] []

/-- C5 as stated is false: with one subplan of status `None`, the claim's
"None counted as a failure" predicts `AnyFailure = true`, but the code
(`!all_success(plan, src, true)`) counts `None` as success and returns
`false`. -/
theorem c5_counterexample :
    ¬(Pred.evaluate .anyFailure c5cex [] = true ↔
      ∃ q ∈ c5cex.plans,
        Plan.status q = some false ∨ Plan.status q = none) := by
  intro hiff
  have hstat : Plan.status
      (Plan.mk "a" u32max 0 false (some (.setStatus none)) [] [] []) =
      none := status_of_setStatus rfl
  have hrhs : ∃ q ∈ c5cex.plans,
      Plan.status q = some false ∨ Plan.status q = none :=
    ⟨_, by rw [c5cex]; simp, Or.inr hstat⟩
  have hlhs := hiff.mpr hrhs
  rw [Pred.evaluate, allSuccessF] at hlhs
  simp only [c5cex, List.isEmpty_nil, if_pos, Plan.plans_mk] at hlhs
  rw [all_attach_eq _ (fun q => (Plan.status q).getD true)] at hlhs
  simp only [List.all_cons, List.all_nil, hstat, Option.getD_none,
    Bool.and_true, Bool.not_true] at hlhs
  cases hlhs

/-- Core of the amended C5: the negated all-fold witnesses exactly a
`Some(false)` status. -/
theorem anyFailure_all_version (l : List Plan) :
    (!l.all fun q => (Plan.status q).getD true) = true ↔
      ∃ q ∈ l, Plan.status q = some false := by
  rw [Bool.not_eq_true', List.all_eq_false]
  constructor
  · rintro ⟨q, hq, hst⟩
    refine ⟨q, hq, ?_⟩
    rcases hs : Plan.status q with _ | b
    · rw [hs] at hst; exact absurd rfl hst
    · rcases b with _ | _
      · rfl
      · rw [hs] at hst; exact absurd rfl hst
  · rintro ⟨q, hq, hst⟩
    refine ⟨q, hq, ?_⟩
    rw [hst]
    simp

/-- C5 amended: `AnyFailure` holds iff some plan of the effective set has
status `Some(false)`; a `None` status is counted as a success (the code
computes `!all_success(plan, src, true)`), not as a failure. -/
theorem c5_anyFailure_iff (p : Plan) (src : List String) :
    Pred.evaluate .anyFailure p src = true ↔
      ∃ q ∈ (if src.isEmpty then p.plans else src.filterMap p.get),
        Plan.status q = some false := by
  rw [Pred.evaluate, allSuccessF]
  by_cases hsrc : src.isEmpty = true
  · rw [if_pos hsrc, if_pos hsrc,
      all_attach_eq p.plans (fun q => (Plan.status q).getD true)]
    exact anyFailure_all_version _
  · rw [if_neg hsrc, if_neg hsrc,
      all_attach_eq (src.filterMap p.get)
        (fun q => (Plan.status q).getD true)]
    exact anyFailure_all_version _

end DPT

namespace DPT

theorem onRun_setStatus (s : Option Bool) (p : Plan) :
    Behaviour.onRun (.setStatus s) p = (.setStatus s, p) := by
  rw [Behaviour.onRun]

theorem bstatus_setStatus (s : Option Bool) (p : Plan) :
    Behaviour.status (.setStatus s) p = s := by
  rw [Behaviour.status.eq_def]

/-- C3: while `RepeatBehaviour`'s stored status is `None`, `on_run`
forwards to the inner behaviour and inspects the inner status: equal to
`retry` stores `Some(retry)` as the wrapper status; the other determinate
value decrements the countdown by one and cycles the inner behaviour
through `on_exit` then `on_entry`, leaving the wrapper status `None`;
`None` changes nothing else. -/
theorem c3_repeat_onRun (inner : Behaviour) (cond : Option Pred)
    (iters : Nat) (retry : Bool) (cd : Nat) (p : Plan) (hcd : 0 < cd) :
    (Behaviour.status (Behaviour.onRun inner p).1
        (Behaviour.onRun inner p).2 = some retry →
      Behaviour.onRun (.repeatB inner cond iters retry cd none) p =
        (.repeatB (Behaviour.onRun inner p).1 cond iters retry cd
          (some retry), (Behaviour.onRun inner p).2)) ∧
    (∀ s, Behaviour.status (Behaviour.onRun inner p).1
        (Behaviour.onRun inner p).2 = some s → s ≠ retry →
      Behaviour.onRun (.repeatB inner cond iters retry cd none) p =
        (.repeatB (Behaviour.onRun inner p).1.onExit.onEntry cond iters
          retry (cd - 1) none, (Behaviour.onRun inner p).2) ∧
      cd - 1 + 1 = cd) ∧
    (Behaviour.status (Behaviour.onRun inner p).1
        (Behaviour.onRun inner p).2 = none →
      Behaviour.onRun (.repeatB inner cond iters retry cd none) p =
        (.repeatB (Behaviour.onRun inner p).1 cond iters retry cd none,
          (Behaviour.onRun inner p).2)) := by
  refine ⟨?_, ?_, ?_⟩
  · intro h
    rw [Behaviour.onRun]
    simp only [Option.isSome_none, Bool.false_eq_true, if_false, h]
    simp
  · intro s h hne
    refine ⟨?_, by omega⟩
    rw [Behaviour.onRun]
    simp only [Option.isSome_none, Bool.false_eq_true, if_false, h]
    simp [hne]
  · intro h
    rw [Behaviour.onRun]
    simp only [Option.isSome_none, Bool.false_eq_true, if_false, h]

theorem c3_witness :
    (0 : Nat) < 1 ∧
    Behaviour.onRun
        (.repeatB (.setStatus (some true)) none 5 false 1 none)
        (Plan.newStub "w" false) =
      (.repeatB (Behaviour.onRun (.setStatus (some true))
          (Plan.newStub "w" false)).1.onExit.onEntry none 5 false 0 none,
        (Behaviour.onRun (.setStatus (some true))
          (Plan.newStub "w" false)).2) := by
  refine ⟨by decide, ?_⟩
  have h := (c3_repeat_onRun (.setStatus (some true)) none 5 false 1
    (Plan.newStub "w" false) (by decide)).2.1 true ?_ (by decide)
  · exact h.1
  · rw [onRun_setStatus]
    exact bstatus_setStatus _ _

end DPT

namespace DPT

theorem binarySearchBy_nil {α : Type} (f : α → Ordering) :
    binarySearchBy f ([] : List α) = .error 0 := by
  rw [binarySearchBy, binarySearchLoop]
  simp

theorem get_of_plans_nil {p : Plan} (h : p.plans = []) (n : String) :
    p.get n = none := by
  rw [Plan.get, Plan.priority, h, binarySearchBy_nil]

theorem utility_of_behaviour_none {p : Plan} (h : p.behaviour = none) :
    Plan.utility p = 0 := by
  rw [Plan.utility]
  simp only [h]

theorem autostart_enterP (π : Option (List String)) (p : Plan) :
    (enterP π p).1.autostart = p.autostart := by
  by_cases h : p.active
  · rw [enterP_of_active _ h]
  · rw [enterP_fst_of_inactive _ (by simpa using h)]; simp

/-- C10: the subplan that `enter_plan` creates for a missing name is a
stub with no behaviour, `autostart = false` and `run_interval = 0`; its
status is `None` and its utility `0`; and, having `autostart = false`, it
is left untouched by any later `enter` of its parent. -/
theorem c10_enter_plan_stub (n : String) (π : List String) (p : Plan)
    (ha : p.active = true) (hs : SortedNames p.plans)
    (hg : p.get n = none) :
    ((Plan.newStub n false).behaviour = none ∧
     (Plan.newStub n false).autostart = false ∧
     (Plan.newStub n false).runInterval = 0 ∧
     Plan.status (Plan.newStub n false) = none ∧
     Plan.utility (Plan.newStub n false) = 0) ∧
    (enterPlanF π p n).2.1 =
      some (enterP (some π) (Plan.newStub n false)).1 ∧
    ((enterP (some π) (Plan.newStub n false)).1.behaviour = none ∧
     (enterP (some π) (Plan.newStub n false)).1.autostart = false ∧
     (enterP (some π) (Plan.newStub n false)).1.runInterval = 0 ∧
     Plan.status (enterP (some π) (Plan.newStub n false)).1 = none ∧
     Plan.utility (enterP (some π) (Plan.newStub n false)).1 = 0) ∧
    (∀ (parent : Plan) (π2 : Option (List String)) (q : Plan),
      q ∈ parent.plans → q.autostart = false →
      q ∈ (enterP π2 parent).1.plans) := by
  have hbeh : (enterP (some π) (Plan.newStub n false)).1.behaviour = none := by
    rw [enterP_fst_behaviour]
    simp [Plan.newStub, Plan.active, u32max]
  refine ⟨⟨rfl, rfl, rfl, status_of_behaviour_none rfl,
      utility_of_behaviour_none rfl⟩, ?_,
    ⟨hbeh, ?_, ?_, status_of_behaviour_none hbeh,
      utility_of_behaviour_none hbeh⟩, ?_⟩
  · -- the handle returned is the entered fresh stub
    rcases hp : p.priority n with pos | pos
    · rw [enterPlanF]
      simp only [ha, Bool.not_true, Bool.false_eq_true, if_false, hp]
      have hle : pos ≤ p.plans.length := binarySearchBy_error_le hp
      have hgi : (p.plans.insertIdx pos (Plan.newStub n false))[pos]? =
          some (Plan.newStub n false) := by
        rw [List.getElem?_eq_getElem
          (by rw [List.length_insertIdx _ _ hle]; omega)]
        rw [List.getElem_insertIdx_self _ _ _ hle]
      rw [hgi]
    · exfalso
      have hlt := binarySearchBy_ok_lt hp
      rw [Plan.get] at hg
      simp only [hp] at hg
      rw [List.getElem?_eq_getElem hlt] at hg
      cases hg
  · rw [autostart_enterP]; rfl
  · rw [interval_enterP]; rfl
  · intro parent π2 q hq hauto
    by_cases hpa : parent.active
    · rw [enterP_of_active _ hpa]; exact hq
    · rw [enterP_fst_of_inactive _ (by simpa using hpa)]
      simp only [Plan.plans_mk]
      exact List.mem_map.mpr ⟨q, hq, by simp [hauto]⟩

theorem c10_witness :
    (Plan.mk "r" 0 1 false none [] [] []).active = true ∧
    SortedNames (Plan.mk "r" 0 1 false none [] [] []).plans ∧
    (Plan.mk "r" 0 1 false none [] [] []).get "a" = none ∧
    (enterPlanF ["r"] (Plan.mk "r" 0 1 false none [] [] []) "a").2.1 =
      some (enterP (some ["r"]) (Plan.newStub "a" false)).1 := by
  have hget : (Plan.mk "r" 0 1 false none [] [] []).get "a" = none :=
    get_of_plans_nil (p := Plan.mk "r" 0 1 false none [] [] []) rfl "a"
  refine ⟨rfl, List.Pairwise.nil, hget, ?_⟩
  exact (c10_enter_plan_stub "a" ["r"] (Plan.mk "r" 0 1 false none [] [] [])
    rfl List.Pairwise.nil hget).2.1

end DPT

namespace DPT

theorem mem_set_self {α : Type} {l : List α} {i : Nat} {a : α}
    (h : i < l.length) : a ∈ l.set i a := by
  have hl : i < (l.set i a).length := by rw [List.length_set]; exact h
  have h2 : (l.set i a)[i] = a := List.getElem_set_self hl
  have h3 := List.getElem_mem hl
  rw [h2] at h3
  exact h3

theorem active_enterP (π : Option (List String)) (p : Plan) :
    (enterP π p).1.active = true := by
  by_cases h : p.active
  · rw [enterP_of_active _ h]; exact h
  · rw [enterP_fst_of_inactive _ (by simpa using h)]
    rw [Plan.active]
    simp [u32max]

/-- C9: `enter_plan(name)` returns absence exactly on an inactive plan,
in which case nothing changes; on an active plan it always returns a
handle to the named subplan, which ends up entered (active) and present
in the subplan list, a fresh stub being created and inserted first when
no subplan of that name exists. -/
theorem c9_enter_plan (p : Plan) (π : List String) (n : String) :
    (p.active = false → enterPlanF π p n = (p, none, [])) ∧
    (p.active = true → SortedNames p.plans →
      ∃ q, (enterPlanF π p n).2.1 = some q ∧ q.active = true ∧
        q.name = n ∧ (enterPlanF π p n).1.get n = some q ∧
        (p.get n = none →
          q = (enterP (some π) (Plan.newStub n false)).1)) := by
  constructor
  · intro ha
    rw [enterPlanF]
    simp only [ha, Bool.not_false, if_true]
  · intro ha hs
    rcases hp : p.priority n with pos | pos
    · -- missing: fresh stub inserted then entered
      obtain ⟨hle, hL, hR⟩ := priority_error hs hp
      have hgi : (p.plans.insertIdx pos (Plan.newStub n false))[pos]? =
          some (Plan.newStub n false) := by
        rw [List.getElem?_eq_getElem
          (by rw [List.length_insertIdx _ _ hle]; omega)]
        rw [List.getElem_insertIdx_self _ _ _ hle]
      have hred : enterPlanF π p n =
          (p.setPlans ((p.plans.insertIdx pos (Plan.newStub n false)).set pos
            (enterP (some π) (Plan.newStub n false)).1),
           some (enterP (some π) (Plan.newStub n false)).1,
           (enterP (some π) (Plan.newStub n false)).2.2) := by
        rw [enterPlanF]
        simp only [ha, Bool.not_true, Bool.false_eq_true, if_false, hp, hgi]
      refine ⟨(enterP (some π) (Plan.newStub n false)).1, by rw [hred],
        active_enterP _ _, by rw [name_enterP]; simp [Plan.newStub], ?_,
        fun _ => rfl⟩
      -- lookup of `n` in the result finds the entered stub
      have hsi : SortedNames (p.plans.insertIdx pos (Plan.newStub n false)) := by
        refine sortedKeys_insertIdx Plan.name hs hle ?_ ?_
        · intro k hk hklt
          simpa [Plan.newStub] using hL k hk hklt
        · intro k hk hkge
          simpa [Plan.newStub] using hR k hk hkge
      have hlen : pos < (p.plans.insertIdx pos (Plan.newStub n false)).length := by
        rw [List.length_insertIdx _ _ hle]; omega
      have heq : (p.plans.insertIdx pos (Plan.newStub n false))[pos] =
          Plan.newStub n false := by
        have h2 := List.getElem?_eq_getElem hlen
        rw [hgi] at h2
        exact (Option.some.inj h2).symm
      have hss : SortedNames ((p.plans.insertIdx pos
          (Plan.newStub n false)).set pos
          (enterP (some π) (Plan.newStub n false)).1) := by
        refine sortedKeys_set Plan.name hsi hlen ?_
        rw [name_enterP, heq]
      rw [hred]
      refine (get_eq_some_iff (by simpa using hss)).mpr
        ⟨?_, by rw [name_enterP]; simp [Plan.newStub]⟩
      rw [plans_setPlans]
      exact mem_set_self hlen
    · -- present: the existing subplan at `pos` is entered
      obtain ⟨hlt, hname⟩ := priority_ok hs hp
      have hred : enterPlanF π p n =
          (p.setPlans (p.plans.set pos (enterP (some π) p.plans[pos]).1),
           some (enterP (some π) p.plans[pos]).1,
           (enterP (some π) p.plans[pos]).2.2) := by
        rw [enterPlanF]
        simp only [ha, Bool.not_true, Bool.false_eq_true, if_false, hp,
          List.getElem?_eq_getElem hlt]
      refine ⟨(enterP (some π) p.plans[pos]).1, by rw [hred],
        active_enterP _ _, by rw [name_enterP]; exact hname, ?_, ?_⟩
      · have hss : SortedNames (p.plans.set pos
            (enterP (some π) p.plans[pos]).1) := by
          refine sortedKeys_set Plan.name hs hlt ?_
          rw [name_enterP]
        rw [hred]
        refine (get_eq_some_iff (by simpa using hss)).mpr
          ⟨?_, by rw [name_enterP]; exact hname⟩
        rw [plans_setPlans]
        exact mem_set_self hlt
      · intro hg
        exfalso
        rw [Plan.get] at hg
        simp only [hp] at hg
        rw [List.getElem?_eq_getElem hlt] at hg
        cases hg

theorem c9_witness :
    ((Plan.newStub "x" false).active = false ∧
      enterPlanF [] (Plan.newStub "x" false) "a" =
        (Plan.newStub "x" false, none, [])) ∧
    ((Plan.mk "r" 0 1 false none [] [] []).active = true ∧
      SortedNames (Plan.mk "r" 0 1 false none [] [] []).plans ∧
      ∃ q, (enterPlanF ["r"] (Plan.mk "r" 0 1 false none [] [] []) "a").2.1 =
          some q ∧ q.active = true ∧ q.name = "a" ∧
        (enterPlanF ["r"] (Plan.mk "r" 0 1 false none [] [] []) "a").1.get "a" =
          some q ∧
        ((Plan.mk "r" 0 1 false none [] [] []).get "a" = none →
          q = (enterP (some ["r"]) (Plan.newStub "a" false)).1)) := by
  refine ⟨⟨rfl, ?_⟩, rfl, List.Pairwise.nil, ?_⟩
  · exact (c9_enter_plan (Plan.newStub "x" false) [] "a").1 rfl
  · exact (c9_enter_plan (Plan.mk "r" 0 1 false none [] [] []) ["r"] "a").2
      rfl List.Pairwise.nil

/-- The hit test of `check_visited_status_and_jump` (behaviour.rs): a
visited name hits when its subplan is present, inactive, and its status
satisfies `status().map(|s| s == jump_val).unwrap_or(true)`. -/
def c2Hit (p : Plan) (jumpVal : Bool) (x : String) : Bool :=
  match p.get x with
  | some q => !q.active && ((Plan.status q).map (· == jumpVal)).getD true
  | none => false

/-- The tail of `check_visited_status_and_jump` (behaviour.rs): append the
first active subplan's name to the visited list unless it already is the
last entry. -/
def c2Append (r : Plan × List String × List Event) :
    Plan × List String × List Event :=
  match r.1.plans.find? (·.active) with
  | none => r
  | some q =>
    if r.2.1.getLast? = some q.name then r
    else (r.1, r.2.1 ++ [q.name], r.2.2)

theorem findIdx_eq_some_of_first {α : Type} (d : α) (f : α → Bool)
    (v : List α) : ∀ (s i : Nat), i < v.length → f (v.getD i d) = true →
    (∀ j, j < i → f (v.getD j d) = false) →
    List.findIdx? f v s = some (s + i) := by
  induction v with
  | nil => intro s i hi; exact absurd hi (by simp)
  | cons x xs ih =>
    intro s i hi hh hfirst
    cases i with
    | zero =>
      simp only [List.getD_cons_zero] at hh
      simp [List.findIdx?_cons, hh]
    | succ j =>
      have hx : f x = false := by
        have := hfirst 0 (Nat.succ_pos j)
        simpa using this
      simp only [List.getD_cons_succ] at hh
      rw [List.findIdx?_cons, hx]
      simp only [Bool.false_eq_true, if_false]
      have := ih (s + 1) j (by simpa using hi) hh
        (fun k hk => by
          have := hfirst (k + 1) (Nat.succ_lt_succ hk)
          simpa using this)
      rw [this]
      congr 1
      omega

theorem checkVisited_eq (π : List String) (p : Plan) (v : List String)
    (j : Bool) : checkVisited π p v j =
    c2Append (match v.findIdx? (c2Hit p j) with
      | some i =>
        ((enterPlanF π (exitP true π p).1 (v.getD i "")).1, v.take i,
          (exitP true π p).2.2 ++
            (enterPlanF π (exitP true π p).1 (v.getD i "")).2.2)
      | none => (p, v, [])) := by
  rw [checkVisited]
  have hfun : (fun x => match p.get x with
      | some q => !q.active && ((Plan.status q).map (· == j)).getD true
      | none => false) = c2Hit p j := rfl
  rw [hfun]
  rcases hf : v.findIdx? (c2Hit p j) with _ | i <;> simp only [hf] <;>
    rw [c2Append]

/-- C2: `SequenceBehaviour::on_prepare` runs
`check_visited_status_and_jump` with `jump_val = false` and
`FallbackBehaviour::on_prepare` with `jump_val = true`; the check scans
the visited list front-to-back for the first name whose subplan is
present, inactive, and satisfies
`status().map(|s| s == jump_val).unwrap_or(true)`; on a hit at position
`i` it exits the subtree excluding self, enters the subplan named
`visited[i]` and truncates the visited list to length `i` (with no hit it
changes nothing); afterwards the first active subplan's name is appended
to the visited list unless it already is the last entry. -/
theorem c2_sequence_fallback_prepare (π : List String) (p : Plan)
    (v : List String) :
    Behaviour.onPrepare (.sequenceB v) π p =
      (.sequenceB (checkVisited π p v false).2.1,
        (checkVisited π p v false).1, (checkVisited π p v false).2.2) ∧
    Behaviour.onPrepare (.fallbackB v) π p =
      (.fallbackB (checkVisited π p v true).2.1,
        (checkVisited π p v true).1, (checkVisited π p v true).2.2) ∧
    (∀ jumpVal i, i < v.length → c2Hit p jumpVal (v.getD i "") = true →
      (∀ j, j < i → c2Hit p jumpVal (v.getD j "") = false) →
      checkVisited π p v jumpVal = c2Append
        ((enterPlanF π (exitP true π p).1 (v.getD i "")).1, v.take i,
          (exitP true π p).2.2 ++
            (enterPlanF π (exitP true π p).1 (v.getD i "")).2.2)) ∧
    (∀ jumpVal, (∀ x ∈ v, c2Hit p jumpVal x = false) →
      checkVisited π p v jumpVal = c2Append (p, v, [])) ∧
    (∀ r : Plan × List String × List Event,
      (r.1.plans.find? (·.active) = none → c2Append r = r) ∧
      ∀ q, r.1.plans.find? (·.active) = some q →
        (r.2.1.getLast? = some q.name → c2Append r = r) ∧
        (r.2.1.getLast? ≠ some q.name →
          c2Append r = (r.1, r.2.1 ++ [q.name], r.2.2))) := by
  refine ⟨by rw [Behaviour.onPrepare], by rw [Behaviour.onPrepare],
    ?_, ?_, ?_⟩
  · intro jumpVal i hi hh hfirst
    rw [checkVisited_eq]
    have hf : v.findIdx? (c2Hit p jumpVal) = some i := by
      have := findIdx_eq_some_of_first "" (c2Hit p jumpVal) v 0 i hi hh hfirst
      simpa using this
    rw [hf]
  · intro jumpVal hnone
    rw [checkVisited_eq]
    have hf : v.findIdx? (c2Hit p jumpVal) = none :=
      List.findIdx?_eq_none_iff.mpr hnone
    rw [hf]
  · intro r
    constructor
    · intro h
      rw [c2Append, h]
    · intro q hq
      constructor
      · intro hl
        rw [c2Append, hq]
        simp [hl]
      · intro hl
        rw [c2Append, hq]
        simp only [if_neg hl]

theorem c2_witness :
    c2Hit (Plan.mk "r" 0 1 false none []
        [Plan.mk "a" u32max 0 false none [] [] []] []) false "a" = true ∧
    checkVisited ["r"] (Plan.mk "r" 0 1 false none []
        [Plan.mk "a" u32max 0 false none [] [] []] []) ["a"] false =
      c2Append
        ((enterPlanF ["r"] (exitP true ["r"] (Plan.mk "r" 0 1 false none []
            [Plan.mk "a" u32max 0 false none [] [] []] [])).1 "a").1, [],
          (exitP true ["r"] (Plan.mk "r" 0 1 false none []
            [Plan.mk "a" u32max 0 false none [] [] []] [])).2.2 ++
            (enterPlanF ["r"] (exitP true ["r"] (Plan.mk "r" 0 1 false none
              [] [Plan.mk "a" u32max 0 false none [] [] []] [])).1
              "a").2.2) := by
  have hs : SortedNames (Plan.mk "r" 0 1 false none []
      [Plan.mk "a" u32max 0 false none [] [] []] []).plans := by
    simp [SortedNames, SortedKeys]
  have hget : (Plan.mk "r" 0 1 false none []
      [Plan.mk "a" u32max 0 false none [] [] []] []).get "a" =
      some (Plan.mk "a" u32max 0 false none [] [] []) :=
    (get_eq_some_iff hs).mpr ⟨by simp, rfl⟩
  have hhit : c2Hit (Plan.mk "r" 0 1 false none []
      [Plan.mk "a" u32max 0 false none [] [] []] []) false "a" = true := by
    rw [c2Hit.eq_def, hget]
    have hst : Plan.status (Plan.mk "a" u32max 0 false none [] [] []) = none :=
      status_of_behaviour_none rfl
    simp [hst, Plan.active]
  refine ⟨hhit, ?_⟩
  have := (c2_sequence_fallback_prepare ["r"] (Plan.mk "r" 0 1 false none []
      [Plan.mk "a" u32max 0 false none [] [] []] []) ["a"]).2.2.1 false 0
    (by decide) (by simpa using hhit) (fun j hj => absurd hj (by omega))
  simpa using this

/-- The fold body of `max_utility` (behaviour.rs): the accumulator is
kept only when strictly greater, so on a tie the new element wins; the
`none` accumulator models the `f64::NAN` seed, which every comparison
rejects. -/
def c4fold (mx : Nat × Option Int) (x : Nat × Int) : Nat × Option Int :=
  match mx.2 with
  | none => (x.1, some x.2)
  | some v => if v > x.2 then mx else (x.1, some x.2)

theorem c4_argmax_last (us : List Int) (hne : us ≠ []) :
    ∃ i, i < us.length ∧
      us.enum.foldl c4fold (0, none) = (i, some (us.getD i 0)) ∧
      (∀ j, j < us.length → us.getD j 0 ≤ us.getD i 0) ∧
      (∀ j, j < us.length → i < j → us.getD j 0 < us.getD i 0) := by
  induction us using List.reverseRecOn with
  | nil => exact absurd rfl hne
  | append_singleton us x ih =>
    by_cases hus : us = []
    · subst hus
      refine ⟨0, by simp, rfl, ?_, ?_⟩
      · intro j hj
        have hj0 : j = 0 := by simp at hj; exact hj
        subst hj0
        simp
      · intro j hj hij
        have hj0 : j = 0 := by simp at hj; exact hj
        omega
    · obtain ⟨i, hi, hfold, hmax, hlast⟩ := ih hus
      have hlen : (us ++ [x]).length = us.length + 1 := by simp
      have henum : (us ++ [x]).enum = us.enum ++ [(us.length, x)] := by
        rw [List.enum_append]
        rfl
      rw [henum, List.foldl_append, hfold]
      simp only [List.foldl_cons, List.foldl_nil]
      have hstep : c4fold (i, some (us.getD i 0)) (us.length, x) =
          if us.getD i 0 > x then (i, some (us.getD i 0))
          else (us.length, some x) := rfl
      rw [hstep]
      have hgetl : ∀ j, j < us.length → (us ++ [x]).getD j 0 = us.getD j 0 :=
        fun j hj => List.getD_append _ _ _ _ hj
      have hgetr : (us ++ [x]).getD us.length 0 = x := by
        rw [List.getD_append_right _ _ _ _ (le_refl _)]
        simp
      by_cases hgt : us.getD i 0 > x
      · rw [if_pos hgt]
        refine ⟨i, by omega, ?_, ?_, ?_⟩
        · rw [hgetl i hi]
        · intro j hj
          rw [hgetl i hi]
          rcases Nat.lt_or_ge j us.length with h | h
          · rw [hgetl j h]
            exact hmax j h
          · have hj2 : j = us.length := by omega
            subst hj2
            rw [hgetr]
            omega
        · intro j hj hij
          rw [hgetl i hi]
          rcases Nat.lt_or_ge j us.length with h | h
          · rw [hgetl j h]
            exact hlast j h hij
          · have hj2 : j = us.length := by omega
            subst hj2
            rw [hgetr]
            omega
      · rw [if_neg hgt]
        refine ⟨us.length, by omega, ?_, ?_, ?_⟩
        · rw [hgetr]
        · intro j hj
          rw [hgetr]
          rcases Nat.lt_or_ge j us.length with h | h
          · rw [hgetl j h]
            have := hmax j h
            omega
          · have hj2 : j = us.length := by omega
            subst hj2
            rw [hgetr]
        · intro j hj hij
          exact absurd hij (by omega)

theorem utility_of_setUtil {p : Plan} {u : Int}
    (h : p.behaviour = some (.setUtil u)) : Plan.utility p = u := by
  rw [Plan.utility, h]
  simp only [Behaviour.utility]

theorem maxUtility_spec (l : List Plan) (hne : l ≠ []) :
    ∃ i, i < l.length ∧
      maxUtility l = some (l.getD i (Plan.newStub "" false),
        Plan.utility (l.getD i (Plan.newStub "" false))) ∧
      (∀ j, j < l.length →
        Plan.utility (l.getD j (Plan.newStub "" false)) ≤
          Plan.utility (l.getD i (Plan.newStub "" false))) ∧
      (∀ j, j < l.length → i < j →
        Plan.utility (l.getD j (Plan.newStub "" false)) <
          Plan.utility (l.getD i (Plan.newStub "" false))) := by
  obtain ⟨i, hi, hfold, hmax, hlast⟩ :=
    c4_argmax_last (l.map Plan.utility) (by simpa using hne)
  have hlen : (l.map Plan.utility).length = l.length := by simp
  have hg : ∀ j, j < l.length →
      (l.map Plan.utility).getD j 0 =
        Plan.utility (l.getD j (Plan.newStub "" false)) := by
    intro j hj
    rw [List.getD_eq_getElem?_getD, List.getD_eq_getElem?_getD,
      List.getElem?_map, List.getElem?_eq_getElem hj]
    rfl
  have hi2 : i < l.length := by omega
  refine ⟨i, hi2, ?_, ?_, ?_⟩
  · simp only [maxUtility]
    rw [if_neg (by simpa [List.isEmpty_iff] using hne)]
    have hattach : (l.attach.map fun ⟨q, _⟩ => Plan.utility q) =
        l.map Plan.utility := List.attach_map_val l Plan.utility
    rw [hattach]
    have hfun : (fun (mx : Nat × Option Int) (x : Nat × Int) =>
        match mx.2 with
        | none => (x.1, some x.2)
        | some v => if v > x.2 then mx else (x.1, some x.2)) = c4fold := rfl
    rw [hfun, hfold]
    simp only [Option.getD_some]
    rw [hg i hi2]
  · intro j hj
    have h2 := hmax j (by omega)
    rw [hg j hj, hg i hi2] at h2
    exact h2
  · intro j hj hij
    have h2 := hlast j (by omega) hij
    rw [hg j hj, hg i hi2] at h2
    exact h2

theorem c4_counterexample :
    Plan.utility (Plan.mk "a" u32max 0 false (some (.setUtil 5)) [] [] []) =
      Plan.utility (Plan.mk "b" u32max 0 false (some (.setUtil 5)) [] [] []) ∧
    maxUtility
        [Plan.mk "a" u32max 0 false (some (.setUtil 5)) [] [] [],
          Plan.mk "b" u32max 0 false (some (.setUtil 5)) [] [] []] =
      some (Plan.mk "b" u32max 0 false (some (.setUtil 5)) [] [] [], 5) ∧
    Behaviour.onPrepare .maxUtil []
        (Plan.mk "r" 0 1 false none []
          [Plan.mk "a" u32max 0 false (some (.setUtil 5)) [] [] [],
            Plan.mk "b" u32max 0 false (some (.setUtil 5)) [] [] []] []) =
      (.maxUtil,
        (enterPlanF [] (Plan.mk "r" 0 1 false none []
          [Plan.mk "a" u32max 0 false (some (.setUtil 5)) [] [] [],
            Plan.mk "b" u32max 0 false (some (.setUtil 5)) [] [] []] [])
          "b").1,
        (enterPlanF [] (Plan.mk "r" 0 1 false none []
          [Plan.mk "a" u32max 0 false (some (.setUtil 5)) [] [] [],
            Plan.mk "b" u32max 0 false (some (.setUtil 5)) [] [] []] [])
          "b").2.2) ∧
    ("b" : String) ≠ "a" := by
  have hA : Plan.utility
      (Plan.mk "a" u32max 0 false (some (.setUtil 5)) [] [] []) = 5 :=
    utility_of_setUtil rfl
  have hB : Plan.utility
      (Plan.mk "b" u32max 0 false (some (.setUtil 5)) [] [] []) = 5 :=
    utility_of_setUtil rfl
  have hmax : maxUtility
      [Plan.mk "a" u32max 0 false (some (.setUtil 5)) [] [] [],
        Plan.mk "b" u32max 0 false (some (.setUtil 5)) [] [] []] =
      some (Plan.mk "b" u32max 0 false (some (.setUtil 5)) [] [] [], 5) := by
    simp only [maxUtility]
    rw [if_neg (by simp)]
    have hattach :
        ([Plan.mk "a" u32max 0 false (some (.setUtil 5)) [] [] [],
          Plan.mk "b" u32max 0 false (some (.setUtil 5)) [] [] []].attach.map
            fun ⟨q, _⟩ => Plan.utility q) =
          [Plan.mk "a" u32max 0 false (some (.setUtil 5)) [] [] [],
            Plan.mk "b" u32max 0 false (some (.setUtil 5)) [] [] []].map
              Plan.utility := List.attach_map_val _ _
    rw [hattach]
    simp only [List.map_cons, List.map_nil, hA, hB]
    rfl
  refine ⟨hA.trans hB.symm, hmax, ?_, by decide⟩
  rw [Behaviour.onPrepare]
  simp only [Plan.plans_mk, hmax]
  have hfind : ([Plan.mk "a" u32max 0 false (some (.setUtil 5)) [] [] [],
      Plan.mk "b" u32max 0 false (some (.setUtil 5)) [] [] []].find?
        fun q => q.active) = none := rfl
  simp only [hfind, Plan.name_mk]

/-- C4 (amended): on a non-empty subplan list `max_utility` selects a
subplan of maximum utility, breaking ties by the LAST occurrence (the
fold keeps the accumulator only when strictly greater, so a later equal
utility overtakes an earlier one); `MaxUtilBehaviour::on_prepare` then
leaves the plan unchanged when the selected subplan is already the
active one, exits the active subplan before entering the selected one
when they differ, and just enters the selected one when no subplan is
active. -/
theorem c4_max_util_prepare :
    (∀ l : List Plan, l ≠ [] →
      ∃ i, i < l.length ∧
        maxUtility l = some (l.getD i (Plan.newStub "" false),
          Plan.utility (l.getD i (Plan.newStub "" false))) ∧
        (∀ j, j < l.length →
          Plan.utility (l.getD j (Plan.newStub "" false)) ≤
            Plan.utility (l.getD i (Plan.newStub "" false))) ∧
        (∀ j, j < l.length → i < j →
          Plan.utility (l.getD j (Plan.newStub "" false)) <
            Plan.utility (l.getD i (Plan.newStub "" false)))) ∧
    (∀ (π : List String) (p : Plan) (best : Plan) (u : Int),
      maxUtility p.plans = some (best, u) →
      (∀ ap, p.plans.find? (·.active) = some ap →
        (ap.name = best.name →
          Behaviour.onPrepare .maxUtil π p = (.maxUtil, p, [])) ∧
        (ap.name ≠ best.name →
          Behaviour.onPrepare .maxUtil π p =
            (.maxUtil,
              (enterPlanF π (exitPlanF π p ap.name).1 best.name).1,
              (exitPlanF π p ap.name).2.2 ++
                (enterPlanF π (exitPlanF π p ap.name).1
                  best.name).2.2))) ∧
      (p.plans.find? (·.active) = none →
        Behaviour.onPrepare .maxUtil π p =
          (.maxUtil, (enterPlanF π p best.name).1,
            (enterPlanF π p best.name).2.2))) := by
  refine ⟨maxUtility_spec, ?_⟩
  intro π p best u hmaxu
  constructor
  · intro ap hfind
    constructor
    · intro hname
      rw [Behaviour.onPrepare]
      simp only [hmaxu, hfind]
      rw [if_pos hname]
    · intro hname
      rw [Behaviour.onPrepare]
      simp only [hmaxu, hfind]
      rw [if_neg hname]
  · intro hfind
    rw [Behaviour.onPrepare]
    simp only [hmaxu, hfind]

theorem c4_witness :
    maxUtility [Plan.mk "c" u32max 0 false (some (.setUtil 7)) [] [] []] =
      some (Plan.mk "c" u32max 0 false (some (.setUtil 7)) [] [] [], 7) ∧
    Behaviour.onPrepare .maxUtil []
        (Plan.mk "r" 0 1 false none []
          [Plan.mk "c" u32max 0 false (some (.setUtil 7)) [] [] []] []) =
      (.maxUtil,
        (enterPlanF [] (Plan.mk "r" 0 1 false none []
          [Plan.mk "c" u32max 0 false (some (.setUtil 7)) [] [] []] [])
          "c").1,
        (enterPlanF [] (Plan.mk "r" 0 1 false none []
          [Plan.mk "c" u32max 0 false (some (.setUtil 7)) [] [] []] [])
          "c").2.2) := by
  have hC : Plan.utility
      (Plan.mk "c" u32max 0 false (some (.setUtil 7)) [] [] []) = 7 :=
    utility_of_setUtil rfl
  have hmax : maxUtility
      [Plan.mk "c" u32max 0 false (some (.setUtil 7)) [] [] []] =
      some (Plan.mk "c" u32max 0 false (some (.setUtil 7)) [] [] [], 7) := by
    simp only [maxUtility]
    rw [if_neg (by simp)]
    have hattach :
        ([Plan.mk "c" u32max 0 false (some (.setUtil 7)) [] [] []].attach.map
            fun ⟨q, _⟩ => Plan.utility q) =
          [Plan.mk "c" u32max 0 false
            (some (.setUtil 7)) [] [] []].map Plan.utility :=
      List.attach_map_val _ _
    rw [hattach]
    simp only [List.map_cons, List.map_nil, hC]
    rfl
  refine ⟨hmax, ?_⟩
  have h2 := (c4_max_util_prepare.2 []
      (Plan.mk "r" 0 1 false none []
        [Plan.mk "c" u32max 0 false (some (.setUtil 7)) [] [] []] [])
      (Plan.mk "c" u32max 0 false (some (.setUtil 7)) [] [] []) 7
      (by simpa using hmax)).2 rfl
  simpa using h2

theorem insertP_cases (π : List String) (p c : Plan) :
    ∃ x : Plan, x.name = c.name ∧ (Wf c → Wf x) ∧
      (insertP π p c).1 = (match p.priority c.name with
        | Except.ok pos => p.setPlans (p.plans.set pos x)
        | Except.error pos => p.setPlans (p.plans.insertIdx pos x)) := by
  rw [insertP]
  by_cases h1 : p.active = true
  · by_cases h2 : c.active = true
    · refine ⟨c, rfl, fun h => h, ?_⟩
      simp only [h1, h2, if_true]
      rcases hpr : p.priority c.name with pos | pos <;> simp only [hpr]
    · have h2f : c.active = false := by simpa using h2
      by_cases h3 : c.autostart = true
      · refine ⟨(enterP (some π) c).1, name_enterP _ _,
          fun h => wf_enterP h _, ?_⟩
        simp only [h1, h2f, h3, if_true, Bool.false_eq_true, if_false]
        rw [name_enterP]
        rcases hpr : p.priority c.name with pos | pos <;> simp only [hpr]
      · have h3f : c.autostart = false := by simpa using h3
        refine ⟨c, rfl, fun h => h, ?_⟩
        simp only [h1, h2f, h3f, if_true, Bool.false_eq_true, if_false]
        rcases hpr : p.priority c.name with pos | pos <;> simp only [hpr]
  · have h1f : p.active = false := by simpa using h1
    by_cases h2 : c.active = true
    · refine ⟨(exitP false (π ++ [c.name]) c).1, name_exitP _ _ _,
        fun h => wf_exitP h _ _, ?_⟩
      simp only [h1f, h2, Bool.false_eq_true, if_false, if_true]
      rw [name_exitP]
      rcases hpr : p.priority c.name with pos | pos <;> simp only [hpr]
    · have h2f : c.active = false := by simpa using h2
      refine ⟨c, rfl, fun h => h, ?_⟩
      simp only [h1f, h2f, Bool.false_eq_true, if_false]
      rcases hpr : p.priority c.name with pos | pos <;> simp only [hpr]

theorem wf_insertP {p c : Plan} (hp : Wf p) (hc : Wf c) (π : List String) :
    Wf (insertP π p c).1 := by
  obtain ⟨x, hxn, hxw, heq⟩ := insertP_cases π p c
  rw [heq]
  obtain ⟨hs, hw⟩ := (wf_iff p).mp hp
  rcases hpr : p.priority c.name with pos | pos <;> simp only [hpr]
  · obtain ⟨hle, hL, hR⟩ := priority_error hs hpr
    rw [wf_iff]
    constructor
    · simp only [plans_setPlans]
      refine sortedKeys_insertIdx Plan.name hs hle ?_ ?_
      · intro k hk hklt
        rw [hxn]
        exact hL k hk hklt
      · intro k hk hkge
        rw [hxn]
        exact hR k hk hkge
    · simp only [plans_setPlans]
      intro q hq
      rcases (List.mem_insertIdx hle).mp hq with rfl | hmem
      · exact hxw hc
      · exact hw _ hmem
  · obtain ⟨hlt, hname⟩ := priority_ok hs hpr
    rw [wf_iff]
    constructor
    · simp only [plans_setPlans]
      refine sortedKeys_set Plan.name hs hlt ?_
      rw [hxn, hname]
    · simp only [plans_setPlans]
      intro q hq
      rcases List.mem_or_eq_of_mem_set hq with hmem | rfl
      · exact hw _ hmem
      · exact hxw hc

theorem wf_removeP {p : Plan} (hp : Wf p) (n : String) :
    Wf (removeP p n).1 := by
  rw [removeP]
  rcases hpr : p.priority n with pos | pos <;> simp only [hpr]
  · exact hp
  · obtain ⟨hs, hw⟩ := (wf_iff p).mp hp
    rw [wf_iff]
    constructor
    · simp only [plans_setPlans]
      exact sortedKeys_eraseIdx Plan.name hs
    · simp only [plans_setPlans]
      intro q hq
      exact hw _ ((List.eraseIdx_sublist p.plans pos).subset hq)

/-- C7: the sorted-by-name, no-duplicate invariant `Wf` holds for the
plans built by `new` and `new_stub` and is preserved by `insert`,
`remove`, `enter`, `exit`, `enter_plan`, `exit_plan` and `run`; a `Wf`
plans list never holds two subplans of the same name; `insert` places
the child at its binary-search position, replacing an existing subplan
of the same name (same length, other positions untouched) and otherwise
inserting (length grows by one); `enter_plan` on an active plan inserts a
missing name at its binary-search position. -/
theorem c7_wf_invariant :
    (∀ b n i a, Wf (Plan.new b n i a)) ∧
    (∀ n a, Wf (Plan.newStub n a)) ∧
    (∀ π p c, Wf p → Wf c → Wf (insertP π p c).1) ∧
    (∀ p n, Wf p → Wf (removeP p n).1) ∧
    (∀ π p, Wf p → Wf (enterP π p).1) ∧
    (∀ ex π p, Wf p → Wf (exitP ex π p).1) ∧
    (∀ π p n, Wf p → Wf (enterPlanF π p n).1) ∧
    (∀ π p n, Wf p → Wf (exitPlanF π p n).1) ∧
    (∀ π p, Wf p → Wf (runF π p).1) ∧
    (∀ p, Wf p → ∀ i j, (hi : i < p.plans.length) →
      (hj : j < p.plans.length) → i ≠ j →
      (p.plans[i]).name ≠ (p.plans[j]).name) ∧
    (∀ π p c pos, p.priority c.name = Except.ok pos →
      (insertP π p c).1.plans.length = p.plans.length ∧
      ((insertP π p c).1.plans[pos]?.map Plan.name) = some c.name ∧
      (∀ k, k ≠ pos → (insertP π p c).1.plans[k]? = p.plans[k]?)) ∧
    (∀ π p c pos, p.priority c.name = Except.error pos →
      (insertP π p c).1.plans.length = p.plans.length + 1 ∧
      ((insertP π p c).1.plans[pos]?.map Plan.name) = some c.name) ∧
    (∀ π p n pos, p.active = true → p.priority n = Except.error pos →
      ((enterPlanF π p n).1.plans[pos]?.map Plan.name) = some n) := by
  refine ⟨fun b n i a => wf_new b n i a, fun n a => wf_newStub n a,
    fun π p c hp hc => wf_insertP hp hc π,
    fun p n hp => wf_removeP hp n,
    fun π p hp => wf_enterP hp π,
    fun ex π p hp => wf_exitP hp ex π,
    fun π p n hp => wf_enterPlanF hp π n,
    fun π p n hp => wf_exitPlanF hp π n,
    fun π p hp => wf_runF p hp π,
    ?_, ?_, ?_, ?_⟩
  · intro p hp i j hi hj hij
    have hmono := List.pairwise_iff_getElem.mp ((wf_iff p).mp hp).1
    rcases Nat.lt_trichotomy i j with h2 | h2 | h2
    · intro he
      have := hmono i j hi hj h2
      rw [he] at this
      exact absurd this (lt_irrefl _)
    · exact absurd h2 hij
    · intro he
      have := hmono j i hj hi h2
      rw [he] at this
      exact absurd this (lt_irrefl _)
  · intro π p c pos hpr
    obtain ⟨x, hxn, _, heq⟩ := insertP_cases π p c
    rw [heq, hpr]
    have hlt : pos < p.plans.length := binarySearchBy_ok_lt hpr
    refine ⟨by simp, ?_, ?_⟩
    · simp only [plans_setPlans]
      rw [List.getElem?_eq_getElem (by simpa using hlt),
        List.getElem_set_self]
      simp [hxn]
    · intro k hk
      simp only [plans_setPlans]
      rw [List.getElem?_set_ne]
      omega
  · intro π p c pos hpr
    obtain ⟨x, hxn, _, heq⟩ := insertP_cases π p c
    rw [heq, hpr]
    have hle : pos ≤ p.plans.length := binarySearchBy_error_le hpr
    refine ⟨by simp [List.length_insertIdx _ _ hle], ?_⟩
    simp only [plans_setPlans]
    rw [List.getElem?_eq_getElem
      (by rw [List.length_insertIdx _ _ hle]; omega)]
    rw [List.getElem_insertIdx_self _ _ _ hle]
    simp [hxn]
  · intro π p n pos ha hpr
    rw [enterPlanF]
    simp only [ha, Bool.not_true, Bool.false_eq_true, if_false, hpr]
    have hle : pos ≤ p.plans.length := binarySearchBy_error_le hpr
    have hlen : pos < (p.plans.insertIdx pos (Plan.newStub n false)).length := by
      rw [List.length_insertIdx _ _ hle]
      omega
    have hgi : (p.plans.insertIdx pos (Plan.newStub n false))[pos]? =
        some (Plan.newStub n false) := by
      rw [List.getElem?_eq_getElem hlen]
      rw [List.getElem_insertIdx_self _ _ _ hle]
    rw [hgi]
    simp only [plans_setPlans]
    rw [List.getElem?_eq_getElem (by simpa using hlen),
      List.getElem_set_self]
    simp [name_enterP, Plan.newStub]

theorem c7_witness :
    Wf (insertP [] (Plan.mk "r" 0 1 false none [] [] [])
      (Plan.newStub "a" false)).1 ∧
    ((enterPlanF ["r"] (Plan.mk "r" 0 1 false none [] [] [])
      "a").1.plans[0]?.map Plan.name) = some "a" := by
  constructor
  · exact c7_wf_invariant.2.2.1 [] (Plan.mk "r" 0 1 false none [] [] [])
      (Plan.newStub "a" false)
      ((wf_iff _).mpr ⟨List.Pairwise.nil, by simp⟩)
      (wf_newStub "a" false)
  · refine c7_wf_invariant.2.2.2.2.2.2.2.2.2.2.2.2 ["r"]
      (Plan.mk "r" 0 1 false none [] [] []) "a" 0 rfl ?_
    rw [Plan.priority]
    simp only [Plan.plans_mk]
    rw [binarySearchBy_nil]

theorem exitP_events (p : Plan) : ∀ (ex : Bool) (π : List String)
    (e : Event), e ∈ (exitP ex π p).2.2 →
    e.func = "exit" ∧ ∃ s, e.path = π ++ s := by
  induction p using Plan.inductionOn with
  | step p IH =>
    intro ex π e he
    by_cases ha : p.active = true
    · rw [exitP] at he
      simp only [ha, Bool.not_true, Bool.false_eq_true, if_false] at he
      have hchild : ∀ e : Event, e ∈ ((p.plans.attach.map fun ⟨q, _⟩ =>
          if q.active then (exitP false (π ++ [q.name]) q).2.2
          else []).flatten) →
          e.func = "exit" ∧ ∃ s, e.path = π ++ s := by
        intro e2 he2
        obtain ⟨l, hl, hel⟩ := List.mem_flatten.mp he2
        obtain ⟨x, hx, rfl⟩ := List.mem_map.mp hl
        obtain ⟨q, hq⟩ := x
        simp only [] at hel
        rcases hqa : q.active with _ | _
        · rw [hqa] at hel
          simp at hel
        · rw [hqa] at hel
          simp only [if_true] at hel
          obtain ⟨hf, s, hp⟩ := IH q hq false (π ++ [q.name]) e2 hel
          exact ⟨hf, [q.name] ++ s, by rw [hp, List.append_assoc]⟩
      cases ex with
      | true =>
        simp only [if_true] at he
        exact hchild e he
      | false =>
        simp only [Bool.false_eq_true, if_false] at he
        rcases List.mem_append.mp he with h1 | h2
        · exact hchild e h1
        · rcases hb : (p.setPlans (p.plans.attach.map fun ⟨q, _⟩ =>
              if q.active then (exitP false (π ++ [q.name]) q).1
              else q)).behaviour with _ | b
          · rw [callExit, hb] at h2
            simp at h2
          · rw [callExit, hb] at h2
            simp only [List.mem_singleton] at h2
            subst h2
            exact ⟨rfl, [], by simp⟩
    · rw [exitP_of_inactive _ _ (by simpa using ha)] at he
      simp at he

theorem enterP_events (p : Plan) : ∀ (pp : Option (List String))
    (e : Event), e ∈ (enterP pp p).2.2 →
    e.func = "entry" ∧ ∃ s, e.path = (pp.getD [] ++ [p.name]) ++ s := by
  induction p using Plan.inductionOn with
  | step p IH =>
    intro pp e he
    by_cases ha : p.active = true
    · rw [enterP_of_active _ ha] at he
      simp at he
    · rw [enterP] at he
      simp only [ha, Bool.false_eq_true, if_false] at he
      rcases List.mem_append.mp he with h1 | h2
      · rcases hb : (p.setCountdown 0).behaviour with _ | b
        · rw [callEntry, hb] at h1
          simp at h1
        · rw [callEntry, hb] at h1
          simp only [List.mem_singleton] at h1
          subst h1
          exact ⟨rfl, [], by simp⟩
      · obtain ⟨l, hl, hel⟩ := List.mem_flatten.mp h2
        obtain ⟨x, hx, rfl⟩ := List.mem_map.mp hl
        obtain ⟨q, hq⟩ := x
        simp only [] at hel
        rcases hqa : q.autostart && !q.active with _ | _
        · rw [hqa] at hel
          simp at hel
        · rw [hqa] at hel
          simp only [if_true] at hel
          obtain ⟨hf, s, hp⟩ :=
            IH q hq (some (pp.getD [] ++ [p.name])) e hel
          refine ⟨hf, [q.name] ++ s, ?_⟩
          rw [hp]
          simp [List.append_assoc]
      
theorem exitPlanF_events {p : Plan} (h : Wf p) (π : List String)
    (n : String) : ∀ e ∈ (exitPlanF π p n).2.2,
    e.func = "exit" ∧ ∃ s, e.path = π ++ n :: s := by
  obtain ⟨hs, hw⟩ := (wf_iff p).mp h
  intro e he
  rw [exitPlanF] at he
  rcases hpr : p.priority n with pos | pos <;> simp only [hpr] at he
  · simp at he
  · rcases hg : p.plans[pos]? with _ | q <;> simp only [hg] at he
    · simp at he
    · obtain ⟨hlt, hname⟩ := priority_ok hs hpr
      have hqe : p.plans[pos] = q := by
        rw [List.getElem?_eq_getElem hlt] at hg
        exact Option.some.inj hg
      have hqn : q.name = n := by
        rw [← hqe]
        exact hname
      obtain ⟨hf, s, hp⟩ := exitP_events q false (π ++ [q.name]) e he
      refine ⟨hf, s, ?_⟩
      rw [hp, hqn, List.append_assoc]
      rfl

theorem enterPlanF_events {p : Plan} (h : Wf p) (π : List String)
    (n : String) : ∀ e ∈ (enterPlanF π p n).2.2,
    e.func = "entry" ∧ ∃ s, e.path = π ++ n :: s := by
  obtain ⟨hs, hw⟩ := (wf_iff p).mp h
  intro e he
  by_cases ha : p.active = true
  · rcases hpr : p.priority n with pos | pos
    · -- missing name: a fresh stub is inserted and entered.  The stub is
      -- generalised to an opaque `st` so no proof step evaluates `enterP`
      -- on a half-concrete argument.
      have hle : pos ≤ p.plans.length := binarySearchBy_error_le hpr
      have hst : ∃ st : Plan, Plan.newStub n false = st := ⟨_, rfl⟩
      obtain ⟨st, hst⟩ := hst
      have hstn : st.name = n := by rw [← hst]; rfl
      have hgi : (p.plans.insertIdx pos st)[pos]? = some st := by
        rw [List.getElem?_eq_getElem
          (by rw [List.length_insertIdx _ _ hle]; omega)]
        rw [List.getElem_insertIdx_self _ _ _ hle]
      have hred : enterPlanF π p n =
          (p.setPlans ((p.plans.insertIdx pos st).set pos
            (enterP (some π) st).1),
           some (enterP (some π) st).1,
           (enterP (some π) st).2.2) := by
        rw [enterPlanF, hst]
        simp only [ha, Bool.not_true, Bool.false_eq_true, if_false, hpr, hgi]
      rw [hred] at he
      obtain ⟨hf, s, hp2⟩ := enterP_events st (some π) e he
      refine ⟨hf, s, ?_⟩
      rw [hp2, hstn]
      simp
    · obtain ⟨hlt, hname⟩ := priority_ok hs hpr
      have hred : enterPlanF π p n =
          (p.setPlans (p.plans.set pos (enterP (some π) p.plans[pos]).1),
           some (enterP (some π) p.plans[pos]).1,
           (enterP (some π) p.plans[pos]).2.2) := by
        rw [enterPlanF]
        simp only [ha, Bool.not_true, Bool.false_eq_true, if_false, hpr,
          List.getElem?_eq_getElem hlt]
      rw [hred] at he
      obtain ⟨hf, s, hp2⟩ := enterP_events p.plans[pos] (some π) e he
      refine ⟨hf, s, ?_⟩
      rw [hp2, hname]
      simp
  · have hred : enterPlanF π p n = (p, none, []) := by
      rw [enterPlanF]
      simp only [(by simpa using ha : p.active = false), Bool.not_false,
        if_true]
    rw [hred] at he
    simp at he

theorem c1_get_aux {p : Plan} {l : List Plan} {pos : Nat} {x : Plan}
    {m : String} (hsp : SortedNames p.plans) (hs : SortedNames l)
    (hlt : pos < l.length) (hxn : x.name = (l.get ⟨pos, hlt⟩).name)
    (hnm : m ≠ (l.get ⟨pos, hlt⟩).name)
    (hmem : ∀ r : Plan, r.name = m → (r ∈ l ↔ r ∈ p.plans)) :
    (p.setPlans (l.set pos x)).get m = p.get m := by
  have hxn2 : x.name = l[pos].name := hxn
  have hs2 : SortedNames (l.set pos x) :=
    sortedKeys_set Plan.name hs hlt hxn2
  have hs3 : SortedNames (p.setPlans (l.set pos x)).plans := by
    rw [plans_setPlans]
    exact hs2
  rcases hgm : p.get m with _ | r
  · have hnone := (get_eq_none_iff hsp).mp hgm
    refine (get_eq_none_iff hs3).mpr ?_
    intro q hq
    rw [plans_setPlans] at hq
    rcases List.mem_or_eq_of_mem_set hq with hmem2 | rfl
    · intro hc
      exact hnone q ((hmem q hc).mp hmem2) hc
    · rw [hxn]
      exact fun hc => hnm hc.symm
  · obtain ⟨hrm, hrname⟩ := (get_eq_some_iff hsp).mp hgm
    refine (get_eq_some_iff hs3).mpr ⟨?_, hrname⟩
    rw [plans_setPlans]
    have hrl : r ∈ l := (hmem r hrname).mpr hrm
    obtain ⟨k, hk, hre⟩ := List.mem_iff_getElem.mp hrl
    have hkpos : k ≠ pos := by
      intro hc
      subst hc
      apply hnm
      rw [← hrname, List.get_eq_getElem, hre]
    refine List.mem_iff_getElem.mpr ⟨k, by simpa using hk, ?_⟩
    rw [List.getElem_set, if_neg (by omega)]
    exact hre

theorem get_exitPlanF_of_ne {p : Plan} (h : Wf p) (π : List String)
    {n m : String} (hnm : m ≠ n) :
    (exitPlanF π p n).1.get m = p.get m := by
  obtain ⟨hs, hw⟩ := (wf_iff p).mp h
  rw [exitPlanF]
  rcases hpr : p.priority n with pos | pos <;> simp only [hpr]
  rcases hg : p.plans[pos]? with _ | q <;> simp only [hg]
  obtain ⟨hlt, hname⟩ := priority_ok hs hpr
  have hqe : p.plans[pos] = q := by
    rw [List.getElem?_eq_getElem hlt] at hg
    exact Option.some.inj hg
  refine c1_get_aux hs hs hlt ?_ ?_ (fun r _ => Iff.rfl)
  · rw [List.get_eq_getElem, hqe, name_exitP]
  · rw [List.get_eq_getElem, hqe]
    have hqn : q.name = n := by rw [← hqe]; exact hname
    rw [hqn]
    exact hnm

theorem get_enterPlanF_of_ne {p : Plan} (h : Wf p) (π : List String)
    {n m : String} (hnm : m ≠ n) :
    (enterPlanF π p n).1.get m = p.get m := by
  obtain ⟨hs, hw⟩ := (wf_iff p).mp h
  by_cases ha : p.active = true
  · rcases hpr : p.priority n with pos | pos
    · -- missing name: stub inserted then entered; `m` is unaffected
      have hle : pos ≤ p.plans.length := binarySearchBy_error_le hpr
      obtain ⟨hle2, hL, hR⟩ := priority_error hs hpr
      obtain ⟨st, hst⟩ : ∃ st : Plan, Plan.newStub n false = st := ⟨_, rfl⟩
      have hstn : st.name = n := by rw [← hst]; rfl
      have hsi : SortedNames (p.plans.insertIdx pos st) := by
        refine sortedKeys_insertIdx Plan.name hs hle ?_ ?_
        · intro k hk hklt
          rw [hstn]
          exact hL k hk hklt
        · intro k hk hkge
          rw [hstn]
          exact hR k hk hkge
      have hlen : pos < (p.plans.insertIdx pos st).length := by
        rw [List.length_insertIdx _ _ hle]
        omega
      have hgi : (p.plans.insertIdx pos st)[pos]? = some st := by
        rw [List.getElem?_eq_getElem hlen]
        rw [List.getElem_insertIdx_self _ _ _ hle]
      have heq : (p.plans.insertIdx pos st)[pos] = st := by
        have h2 := List.getElem?_eq_getElem hlen
        rw [hgi] at h2
        exact (Option.some.inj h2).symm
      have hred : (enterPlanF π p n).1 =
          p.setPlans ((p.plans.insertIdx pos st).set pos
            (enterP (some π) st).1) := by
        rw [enterPlanF, hst]
        simp only [ha, Bool.not_true, Bool.false_eq_true, if_false, hpr, hgi]
      rw [hred]
      refine c1_get_aux hs hsi hlen ?_ ?_ ?_
      · rw [List.get_eq_getElem, heq, name_enterP]
      · rw [List.get_eq_getElem, heq, hstn]
        exact hnm
      · intro r hrm
        constructor
        · intro hr
          rcases (List.mem_insertIdx hle).mp hr with h2 | hmem2
          · exfalso
            apply hnm
            rw [← hrm, h2, hstn]
          · exact hmem2
        · intro hr
          exact (List.mem_insertIdx hle).mpr (Or.inr hr)
    · obtain ⟨hlt, hname⟩ := priority_ok hs hpr
      have hred : (enterPlanF π p n).1 =
          p.setPlans (p.plans.set pos (enterP (some π) p.plans[pos]).1) := by
        rw [enterPlanF]
        simp only [ha, Bool.not_true, Bool.false_eq_true, if_false, hpr,
          List.getElem?_eq_getElem hlt]
      rw [hred]
      refine c1_get_aux hs hs hlt ?_ ?_ (fun r _ => Iff.rfl)
      · rw [List.get_eq_getElem, name_enterP]
      · rw [List.get_eq_getElem, hname]
        exact hnm
  · have hred : enterPlanF π p n = (p, none, []) := by
      rw [enterPlanF]
      simp only [(by simpa using ha : p.active = false), Bool.not_false,
        if_true]
    rw [hred]

theorem c1_fold_exit (π : List String) (L : List String) :
    ∀ acc : Plan × List Event, Wf acc.1 →
      Wf ((L.foldl (fun (acc : Plan × List Event) n =>
        ((exitPlanF π acc.1 n).1, acc.2 ++ (exitPlanF π acc.1 n).2.2))
        acc).1) ∧
      (∀ e ∈ (L.foldl (fun (acc : Plan × List Event) n =>
        ((exitPlanF π acc.1 n).1, acc.2 ++ (exitPlanF π acc.1 n).2.2))
        acc).2,
        e ∈ acc.2 ∨ (e.func = "exit" ∧ ∃ n s, n ∈ L ∧
          e.path = π ++ n :: s)) ∧
      (∀ m, m ∉ L →
        ((L.foldl (fun (acc : Plan × List Event) n =>
          ((exitPlanF π acc.1 n).1, acc.2 ++ (exitPlanF π acc.1 n).2.2))
          acc).1.get m = acc.1.get m)) := by
  induction L with
  | nil =>
    intro acc h
    exact ⟨h, fun e he => Or.inl he, fun m _ => rfl⟩
  | cons n L ih =>
    intro acc h
    simp only [List.foldl_cons]
    obtain ⟨hwf, hev, hget⟩ := ih
      ((exitPlanF π acc.1 n).1, acc.2 ++ (exitPlanF π acc.1 n).2.2)
      (wf_exitPlanF h π n)
    refine ⟨hwf, ?_, ?_⟩
    · intro e he
      rcases hev e he with hin | ⟨hf, n2, s, hn2, hp2⟩
      · rcases List.mem_append.mp hin with h1 | h2
        · exact Or.inl h1
        · obtain ⟨hf, s, hp2⟩ := exitPlanF_events h π n e h2
          exact Or.inr ⟨hf, n, s, List.mem_cons_self n L, hp2⟩
      · exact Or.inr ⟨hf, n2, s, List.mem_cons_of_mem n hn2, hp2⟩
    · intro m hm
      rw [hget m (fun hc => hm (List.mem_cons_of_mem n hc))]
      exact get_exitPlanF_of_ne h π
        (fun hc => hm (hc ▸ List.mem_cons_self n L))

theorem c1_fold_enter (π : List String) (L : List String) :
    ∀ acc : Plan × List Event, Wf acc.1 →
      Wf ((L.foldl (fun (acc : Plan × List Event) n =>
        ((enterPlanF π acc.1 n).1, acc.2 ++ (enterPlanF π acc.1 n).2.2))
        acc).1) ∧
      (∀ e ∈ (L.foldl (fun (acc : Plan × List Event) n =>
        ((enterPlanF π acc.1 n).1, acc.2 ++ (enterPlanF π acc.1 n).2.2))
        acc).2,
        e ∈ acc.2 ∨ (e.func = "entry" ∧ ∃ n s, n ∈ L ∧
          e.path = π ++ n :: s)) ∧
      (∀ m, m ∉ L →
        ((L.foldl (fun (acc : Plan × List Event) n =>
          ((enterPlanF π acc.1 n).1, acc.2 ++ (enterPlanF π acc.1 n).2.2))
          acc).1.get m = acc.1.get m)) := by
  induction L with
  | nil =>
    intro acc h
    exact ⟨h, fun e he => Or.inl he, fun m _ => rfl⟩
  | cons n L ih =>
    intro acc h
    simp only [List.foldl_cons]
    obtain ⟨hwf, hev, hget⟩ := ih
      ((enterPlanF π acc.1 n).1, acc.2 ++ (enterPlanF π acc.1 n).2.2)
      (wf_enterPlanF h π n)
    refine ⟨hwf, ?_, ?_⟩
    · intro e he
      rcases hev e he with hin | ⟨hf, n2, s, hn2, hp2⟩
      · rcases List.mem_append.mp hin with h1 | h2
        · exact Or.inl h1
        · obtain ⟨hf, s, hp2⟩ := enterPlanF_events h π n e h2
          exact Or.inr ⟨hf, n, s, List.mem_cons_self n L, hp2⟩
      · exact Or.inr ⟨hf, n2, s, List.mem_cons_of_mem n hn2, hp2⟩
    · intro m hm
      rw [hget m (fun hc => hm (List.mem_cons_of_mem n hc))]
      exact get_enterPlanF_of_ne h π
        (fun hc => hm (hc ▸ List.mem_cons_self n L))

/-- C1: a transition firing performs `exit_plan` for every name in
`src \\ dst` and then `enter_plan` for every name in `dst \\ src`: the
trace splits as exit events (each under a span `π ++ [n]` with
`n ∈ src \\ dst`) followed by entry events (each under a span `π ++ [n]`
with `n ∈ dst \\ src`); a subplan named in both `src` and `dst` is left
untouched: its lookup is unchanged and no `on_exit`/`on_entry` event is
emitted under its span. -/
theorem c1_transition_firing (π : List String) (t : Transition) (p : Plan)
    (hw : Wf p) :
    (∃ exs ens : List Event,
      (fireTransition π t p).2 = exs ++ ens ∧
      (∀ e ∈ exs, e.func = "exit" ∧
        ∃ n s, n ∈ t.src ∧ n ∉ t.dst ∧ e.path = π ++ n :: s) ∧
      (∀ e ∈ ens, e.func = "entry" ∧
        ∃ n s, n ∈ t.dst ∧ n ∉ t.src ∧ e.path = π ++ n :: s)) ∧
    (∀ m, m ∈ t.src → m ∈ t.dst →
      (fireTransition π t p).1.get m = p.get m ∧
      ∀ e ∈ (fireTransition π t p).2, ∀ s, e.path ≠ π ++ m :: s) := by
  obtain ⟨hwfex, hevex, hgetex⟩ :=
    c1_fold_exit π (t.src.filter fun n => !t.dst.contains n) (p, []) hw
  obtain ⟨hwfen, heven, hgeten⟩ :=
    c1_fold_enter π (t.dst.filter fun n => !t.src.contains n)
      (((t.src.filter fun n => !t.dst.contains n).foldl
      (fun (acc : Plan × List Event) n =>
        ((exitPlanF π acc.1 n).1, acc.2 ++ (exitPlanF π acc.1 n).2.2))
      (p, [])).1, []) hwfex
  have hfire1 : (fireTransition π t p).1 = ((t.dst.filter fun n => !t.src.contains n).foldl
      (fun (acc : Plan × List Event) n =>
        ((enterPlanF π acc.1 n).1, acc.2 ++ (enterPlanF π acc.1 n).2.2))
      (((t.src.filter fun n => !t.dst.contains n).foldl
      (fun (acc : Plan × List Event) n =>
        ((exitPlanF π acc.1 n).1, acc.2 ++ (exitPlanF π acc.1 n).2.2))
      (p, [])).1, [])).1 := by
    rw [fireTransition]
  have hfire2 : (fireTransition π t p).2 =
      ((t.src.filter fun n => !t.dst.contains n).foldl
      (fun (acc : Plan × List Event) n =>
        ((exitPlanF π acc.1 n).1, acc.2 ++ (exitPlanF π acc.1 n).2.2))
      (p, [])).2 ++ ((t.dst.filter fun n => !t.src.contains n).foldl
      (fun (acc : Plan × List Event) n =>
        ((enterPlanF π acc.1 n).1, acc.2 ++ (enterPlanF π acc.1 n).2.2))
      (((t.src.filter fun n => !t.dst.contains n).foldl
      (fun (acc : Plan × List Event) n =>
        ((exitPlanF π acc.1 n).1, acc.2 ++ (exitPlanF π acc.1 n).2.2))
      (p, [])).1, [])).2 := by
    rw [fireTransition]
  constructor
  · refine ⟨((t.src.filter fun n => !t.dst.contains n).foldl
      (fun (acc : Plan × List Event) n =>
        ((exitPlanF π acc.1 n).1, acc.2 ++ (exitPlanF π acc.1 n).2.2))
      (p, [])).2, ((t.dst.filter fun n => !t.src.contains n).foldl
      (fun (acc : Plan × List Event) n =>
        ((enterPlanF π acc.1 n).1, acc.2 ++ (enterPlanF π acc.1 n).2.2))
      (((t.src.filter fun n => !t.dst.contains n).foldl
      (fun (acc : Plan × List Event) n =>
        ((exitPlanF π acc.1 n).1, acc.2 ++ (exitPlanF π acc.1 n).2.2))
      (p, [])).1, [])).2, hfire2, ?_, ?_⟩
    · intro e he
      rcases hevex e he with hin | ⟨hf, n, s, hn, hp2⟩
      · simp at hin
      · refine ⟨hf, n, s, (List.mem_filter.mp hn).1, ?_, hp2⟩
        intro hc
        have h2 := (List.mem_filter.mp hn).2
        simp [hc] at h2
    · intro e he
      rcases heven e he with hin | ⟨hf, n, s, hn, hp2⟩
      · simp at hin
      · refine ⟨hf, n, s, (List.mem_filter.mp hn).1, ?_, hp2⟩
        intro hc
        have h2 := (List.mem_filter.mp hn).2
        simp [hc] at h2
  · intro m hms hmd
    have hmnotex : m ∉ t.src.filter fun n => !t.dst.contains n := by
      intro hc
      have h2 := (List.mem_filter.mp hc).2
      simp [hmd] at h2
    have hmnoten : m ∉ t.dst.filter fun n => !t.src.contains n := by
      intro hc
      have h2 := (List.mem_filter.mp hc).2
      simp [hms] at h2
    constructor
    · rw [hfire1, hgeten m hmnoten]
      exact hgetex m hmnotex
    · intro e he s hp2
      rw [hfire2] at he
      rcases List.mem_append.mp he with h1 | h2
      · rcases hevex e h1 with hin | ⟨hf, n, s2, hn, hp3⟩
        · simp at hin
        · rw [hp2] at hp3
          have hcons := List.append_cancel_left hp3
          have hmn : m = n := (List.cons.inj hcons).1
          subst hmn
          have h3 := (List.mem_filter.mp hn).2
          simp [hmd] at h3
      · rcases heven e h2 with hin | ⟨hf, n, s2, hn, hp3⟩
        · simp at hin
        · rw [hp2] at hp3
          have hcons := List.append_cancel_left hp3
          have hmn : m = n := (List.cons.inj hcons).1
          subst hmn
          have h3 := (List.mem_filter.mp hn).2
          simp [hms] at h3

theorem c1_witness :
    Wf (Plan.mk "r" 0 1 false none [] [] []) ∧
    (fireTransition ["r"] (Transition.mk ["b"] ["b"] Pred.tru)
        (Plan.mk "r" 0 1 false none [] [] [])).1.get "b" =
      (Plan.mk "r" 0 1 false none [] [] []).get "b" := by
  have hwf : Wf (Plan.mk "r" 0 1 false none [] [] []) :=
    (wf_iff _).mpr ⟨List.Pairwise.nil, by simp⟩
  refine ⟨hwf, ?_⟩
  exact ((c1_transition_firing ["r"] (Transition.mk ["b"] ["b"] Pred.tru)
    (Plan.mk "r" 0 1 false none [] [] []) hwf).2 "b"
    (by simp) (by simp)).1

/-- Events a transition pass may emit: `on_exit`/`on_entry` calls, always
under a span extending the plan path. -/
def TransEvent (π : List String) (e : Event) : Prop :=
  (e.func = "exit" ∨ e.func = "entry") ∧ ∃ s, e.path = π ++ s

theorem exitPlanF_pathext (π : List String) (p : Plan) (n : String) :
    ∀ e ∈ (exitPlanF π p n).2.2, TransEvent π e := by
  intro e he
  rw [exitPlanF] at he
  rcases hpr : p.priority n with pos | pos <;> simp only [hpr] at he
  · simp at he
  · rcases hg : p.plans[pos]? with _ | q <;> simp only [hg] at he
    · simp at he
    · obtain ⟨hf, s, hp2⟩ := exitP_events q false (π ++ [q.name]) e he
      exact ⟨Or.inl hf, [q.name] ++ s, by rw [hp2, List.append_assoc]⟩

theorem enterPlanF_pathext (π : List String) (p : Plan) (n : String) :
    ∀ e ∈ (enterPlanF π p n).2.2, TransEvent π e := by
  intro e he
  by_cases ha : p.active = true
  · rcases hpr : p.priority n with pos | pos
    · have hle : pos ≤ p.plans.length := binarySearchBy_error_le hpr
      obtain ⟨st, hst⟩ : ∃ st : Plan, Plan.newStub n false = st := ⟨_, rfl⟩
      have hgi : (p.plans.insertIdx pos st)[pos]? = some st := by
        rw [List.getElem?_eq_getElem
          (by rw [List.length_insertIdx _ _ hle]; omega)]
        rw [List.getElem_insertIdx_self _ _ _ hle]
      have hred : enterPlanF π p n =
          (p.setPlans ((p.plans.insertIdx pos st).set pos
            (enterP (some π) st).1),
           some (enterP (some π) st).1,
           (enterP (some π) st).2.2) := by
        rw [enterPlanF, hst]
        simp only [ha, Bool.not_true, Bool.false_eq_true, if_false, hpr, hgi]
      rw [hred] at he
      obtain ⟨hf, s, hp2⟩ := enterP_events st (some π) e he
      exact ⟨Or.inr hf, [st.name] ++ s, by rw [hp2]; simp⟩
    · have hlt : pos < p.plans.length := binarySearchBy_ok_lt hpr
      have hred : enterPlanF π p n =
          (p.setPlans (p.plans.set pos (enterP (some π) p.plans[pos]).1),
           some (enterP (some π) p.plans[pos]).1,
           (enterP (some π) p.plans[pos]).2.2) := by
        rw [enterPlanF]
        simp only [ha, Bool.not_true, Bool.false_eq_true, if_false, hpr,
          List.getElem?_eq_getElem hlt]
      rw [hred] at he
      obtain ⟨hf, s, hp2⟩ := enterP_events p.plans[pos] (some π) e he
      exact ⟨Or.inr hf, [p.plans[pos].name] ++ s, by rw [hp2]; simp⟩
  · have hred : enterPlanF π p n = (p, none, []) := by
      rw [enterPlanF]
      simp only [(by simpa using ha : p.active = false), Bool.not_false,
        if_true]
    rw [hred] at he
    simp at he

theorem c6_fold_exit (π : List String) (L : List String) :
    ∀ acc : Plan × List Event, (∀ e ∈ acc.2, TransEvent π e) →
      ∀ e ∈ (L.foldl (fun (acc : Plan × List Event) n =>
        ((exitPlanF π acc.1 n).1, acc.2 ++ (exitPlanF π acc.1 n).2.2))
        acc).2, TransEvent π e := by
  induction L with
  | nil => exact fun acc h => h
  | cons n L ih =>
    intro acc h
    simp only [List.foldl_cons]
    refine ih _ ?_
    intro e he
    rcases List.mem_append.mp he with h1 | h2
    · exact h e h1
    · exact exitPlanF_pathext π acc.1 n e h2

theorem c6_fold_enter (π : List String) (L : List String) :
    ∀ acc : Plan × List Event, (∀ e ∈ acc.2, TransEvent π e) →
      ∀ e ∈ (L.foldl (fun (acc : Plan × List Event) n =>
        ((enterPlanF π acc.1 n).1, acc.2 ++ (enterPlanF π acc.1 n).2.2))
        acc).2, TransEvent π e := by
  induction L with
  | nil => exact fun acc h => h
  | cons n L ih =>
    intro acc h
    simp only [List.foldl_cons]
    refine ih _ ?_
    intro e he
    rcases List.mem_append.mp he with h1 | h2
    · exact h e h1
    · exact enterPlanF_pathext π acc.1 n e h2

theorem fireTransition_transEvents (π : List String) (t : Transition)
    (p : Plan) : ∀ e ∈ (fireTransition π t p).2, TransEvent π e := by
  intro e he
  rw [fireTransition] at he
  rcases List.mem_append.mp he with h1 | h2
  · exact c6_fold_exit π _ (p, []) (fun e h => by simp at h) e h1
  · exact c6_fold_enter π _ _ (fun e h => by simp at h) e h2

theorem c6_fold_fire (π : List String) (ts : List Transition) :
    ∀ acc : Plan × List Event, (∀ e ∈ acc.2, TransEvent π e) →
      ∀ e ∈ (ts.foldl (fun (acc : Plan × List Event) t =>
        ((fireTransition π t acc.1).1, acc.2 ++ (fireTransition π t acc.1).2))
        acc).2, TransEvent π e := by
  induction ts with
  | nil => exact fun acc h => h
  | cons t ts ih =>
    intro acc h
    simp only [List.foldl_cons]
    refine ih _ ?_
    intro e he
    rcases List.mem_append.mp he with h1 | h2
    · exact h e h1
    · exact fireTransition_transEvents π t acc.1 e h2

theorem transPhase_transEvents (π : List String) (p : Plan) :
    ∀ e ∈ (transPhase π p).2, TransEvent π e := by
  intro e he
  rw [transPhase] at he
  exact c6_fold_fire π _ _ (fun e h => by simp at h) e he

theorem c2Append_events (r : Plan × List String × List Event) :
    (c2Append r).2.2 = r.2.2 := by
  rw [c2Append]
  rcases hf : r.1.plans.find? (·.active) with _ | q <;> simp only [hf]
  by_cases hl : r.2.1.getLast? = some q.name
  · rw [if_pos hl]
  · rw [if_neg hl]

theorem checkVisited_events (π : List String) (p : Plan) (v : List String)
    (j : Bool) : ∀ e ∈ (checkVisited π p v j).2.2, TransEvent π e := by
  intro e he
  rw [checkVisited_eq, c2Append_events] at he
  rcases hf : v.findIdx? (c2Hit p j) with _ | i <;> simp only [hf] at he
  · simp at he
  · rcases List.mem_append.mp he with h1 | h2
    · obtain ⟨hfn, s, hp2⟩ := exitP_events p true π e h1
      exact ⟨Or.inl hfn, s, hp2⟩
    · exact enterPlanF_pathext π (exitP true π p).1 (v.getD i "") e h2

theorem onPrepare_events (b : Behaviour) : ∀ (π : List String) (p : Plan),
    ∀ e ∈ (Behaviour.onPrepare b π p).2.2, TransEvent π e := by
  induction b with
  | runCount c1 c2 c3 =>
    intro π p e he
    rw [Behaviour.onPrepare] at he
    simp at he
  | setStatus st =>
    intro π p e he
    rw [Behaviour.onPrepare] at he
    simp at he
  | setUtil u =>
    intro π p e he
    rw [Behaviour.onPrepare] at he
    simp at he
  | allSuccessStatus =>
    intro π p e he
    rw [Behaviour.onPrepare] at he
    simp at he
  | anySuccessStatus =>
    intro π p e he
    rw [Behaviour.onPrepare] at he
    simp at he
  | sequenceB v =>
    intro π p e he
    rw [Behaviour.onPrepare] at he
    exact checkVisited_events π p v false e he
  | fallbackB v =>
    intro π p e he
    rw [Behaviour.onPrepare] at he
    exact checkVisited_events π p v true e he
  | maxUtil =>
    intro π p e he
    rw [Behaviour.onPrepare] at he
    split at he
    · simp at he
    · split at he
      · simp only [] at he
        split at he
        · simp at he
        · rcases List.mem_append.mp he with h1 | h2
          · exact exitPlanF_pathext π p _ e h1
          · exact enterPlanF_pathext π _ _ e h2
      · exact enterPlanF_pathext π p _ e he
  | repeatB inner cond iters retry cd st ih =>
    intro π p e he
    rw [Behaviour.onPrepare] at he
    split at he
    · simp at he
    · split at he
      · simp at he
      · exact ih π p e he

theorem callPrepare_pathext (π : List String) (p : Plan) :
    ∀ e ∈ (callPrepare π p).2, ∃ s, e.path = π ++ s := by
  intro e he
  rw [callPrepare] at he
  rcases hb : p.behaviour with _ | b <;> simp only [hb] at he
  · simp at he
  · rcases List.mem_cons.mp he with rfl | h2
    · exact ⟨[], by simp⟩
    · exact (onPrepare_events b π (p.setBehaviour none) e h2).2

theorem prepPhase_pathext (π : List String) (p : Plan) :
    ∀ e ∈ (prepPhase π p).2, ∃ s, e.path = π ++ s := by
  intro e he
  rw [prepPhase] at he
  split at he
  · exact callPrepare_pathext π p e he
  · simp at he

theorem callRun_pathext (π : List String) (p : Plan) :
    ∀ e ∈ (callRun π p).2, ∃ s, e.path = π ++ s := by
  intro e he
  rw [callRun] at he
  rcases hb : p.behaviour with _ | b <;> simp only [hb] at he
  · simp at he
  · simp only [List.mem_singleton] at he
    subst he
    exact ⟨[], by simp⟩

theorem prePhases_pathext {p : Plan} (ha : p.active = true)
    (π : List String) :
    ∀ e ∈ (prePhases π p).2, ∃ s, e.path = π ++ s := by
  have hpre : prePhases π p = ((prepPhase π (transPhase π p).1).1,
      [] ++ (transPhase π p).2 ++ (prepPhase π (transPhase π p).1).2) := by
    rw [prePhases, enterP_of_active none ha]
  intro e he
  rw [hpre] at he
  simp only [List.nil_append] at he
  rcases List.mem_append.mp he with h1 | h2
  · exact (transPhase_transEvents π p e h1).2
  · exact prepPhase_pathext π _ e h2

theorem runF_pathext (p : Plan) : ∀ (π : List String),
    p.active = true → ∀ e ∈ (runF π p).2, ∃ s, e.path = π ++ s := by
  intro π ha e he
  rw [runF] at he
  simp only [active_prePhases, Bool.not_true, Bool.false_eq_true,
    if_false] at he
  have hchild : ∀ e2 ∈ ((prePhases π p).1.plans.attach.map fun ⟨q, _⟩ =>
      if q.active then (runF (π ++ [q.name]) q).2 else []).flatten,
      ∃ s, e2.path = π ++ s := by
    intro e2 he2
    obtain ⟨l, hl, hel⟩ := List.mem_flatten.mp he2
    obtain ⟨x, hx, rfl⟩ := List.mem_map.mp hl
    obtain ⟨q, hq⟩ := x
    simp only [] at hel
    rcases hqa : q.active with _ | _
    · rw [hqa] at hel
      simp at hel
    · rw [hqa] at hel
      simp only [if_true] at hel
      obtain ⟨s, hp2⟩ := runF_pathext q (π ++ [q.name]) hqa e2 hel
      exact ⟨[q.name] ++ s, by rw [hp2, List.append_assoc]⟩
  split at he
  · rcases List.mem_append.mp he with h1 | h2
    · exact prePhases_pathext ha π e h1
    · exact hchild e h2
  · split at he
    · rcases List.mem_append.mp he with h12 | h3
      · rcases List.mem_append.mp h12 with h1 | h2
        · exact prePhases_pathext ha π e h1
        · exact hchild e h2
      · exact callRun_pathext π _ e h3
    · rcases List.mem_append.mp he with h1 | h2
      · exact prePhases_pathext ha π e h1
      · exact hchild e h2
termination_by mu p
decreasing_by exact prePhases_muBound π p _ hq

theorem prepPhase_of_interval_zero {p : Plan} (h : p.runInterval = 0)
    (π : List String) : prepPhase π p = (p, []) := by
  rw [prepPhase, h]
  rw [if_neg (by simp)]

theorem runF_interval_zero_eq {p : Plan} (h0 : p.runInterval = 0)
    (π : List String) :
    runF π p = ((prePhases π p).1.setPlans
        ((prePhases π p).1.plans.map fun q =>
          if q.active then (runF (π ++ [q.name]) q).1 else q),
      (prePhases π p).2 ++
        ((prePhases π p).1.plans.map fun q =>
          if q.active then (runF (π ++ [q.name]) q).2 else []).flatten) := by
  conv_lhs => rw [runF]
  simp only [active_prePhases, Bool.not_true, Bool.false_eq_true, if_false]
  have hi : ((prePhases π p).1.setPlans
      ((prePhases π p).1.plans.attach.map fun ⟨q, _⟩ =>
        if q.active then (runF (π ++ [q.name]) q).1 else q)).runInterval
      = 0 := by
    rw [runInterval_setPlans, interval_prePhases]
    exact h0
  rw [if_pos hi]
  have hm1 : ((prePhases π p).1.plans.attach.map fun ⟨q, _⟩ =>
      if q.active then (runF (π ++ [q.name]) q).1 else q) =
      (prePhases π p).1.plans.map fun q =>
        if q.active then (runF (π ++ [q.name]) q).1 else q :=
    List.attach_map_val _ (fun q : Plan =>
      if q.active then (runF (π ++ [q.name]) q).1 else q)
  have hm2 : ((prePhases π p).1.plans.attach.map fun ⟨q, _⟩ =>
      if q.active then (runF (π ++ [q.name]) q).2 else []) =
      (prePhases π p).1.plans.map fun q =>
        if q.active then (runF (π ++ [q.name]) q).2 else [] :=
    List.attach_map_val _ (fun q : Plan =>
      if q.active then (runF (π ++ [q.name]) q).2 else [])
  rw [hm1, hm2]

/-- C6: with `run_interval == 0` the interval is preserved by `run` (so
it stays zero over any sequence of calls), `run` reduces to the
pre-phases followed by recursion into exactly the active subplans (every
active subplan is run under its extended span, inactive ones are left
as-is), and the behaviour's `on_prepare`/`on_run` are never invoked: no
`prepare` or `run` event is ever emitted under the plan's own span. -/
theorem c6_run_interval_zero (π : List String) (p : Plan)
    (h0 : p.runInterval = 0) :
    (runF π p).1.runInterval = 0 ∧
    runF π p = ((prePhases π p).1.setPlans
        ((prePhases π p).1.plans.map fun q =>
          if q.active then (runF (π ++ [q.name]) q).1 else q),
      (prePhases π p).2 ++
        ((prePhases π p).1.plans.map fun q =>
          if q.active then (runF (π ++ [q.name]) q).2 else []).flatten) ∧
    (∀ e ∈ (runF π p).2, e.path = π →
      e.func ≠ "prepare" ∧ e.func ≠ "run") := by
  have heq := runF_interval_zero_eq h0 π
  refine ⟨?_, heq, ?_⟩
  · simp [heq, interval_prePhases, h0]
  · intro e he hpath
    rw [heq] at he
    rcases List.mem_append.mp he with h1 | h2
    · rw [prePhases] at h1
      rcases List.mem_append.mp h1 with h12 | h3
      · rcases List.mem_append.mp h12 with hs1 | hs2
        · obtain ⟨hf, s, _⟩ := enterP_events p none e hs1
          exact ⟨by rw [hf]; decide, by rw [hf]; decide⟩
        · rcases transPhase_transEvents π (enterP none p).1 e hs2 with
            ⟨hf | hf, _⟩
          · exact ⟨by rw [hf]; decide, by rw [hf]; decide⟩
          · exact ⟨by rw [hf]; decide, by rw [hf]; decide⟩
      · exfalso
        have hint : (transPhase π (enterP none p).1).1.runInterval = 0 := by
          rw [(plansOnly_transPhase π _).fields.2.2.1, interval_enterP]
          exact h0
        rw [prepPhase_of_interval_zero hint π] at h3
        simp at h3
    · obtain ⟨l, hl, hel⟩ := List.mem_flatten.mp h2
      obtain ⟨q, hql, rfl⟩ := List.mem_map.mp hl
      rcases hqa : q.active with _ | _
      · rw [hqa] at hel
        simp at hel
      · rw [hqa] at hel
        simp only [if_true] at hel
        obtain ⟨s, hp2⟩ := runF_pathext q (π ++ [q.name]) hqa e hel
        exfalso
        rw [hpath] at hp2
        have hlen := congrArg List.length hp2
        simp at hlen

theorem c6_witness :
    (Plan.mk "r" 5 0 false none [] [] []).runInterval = 0 ∧
    (runF ["r"] (Plan.mk "r" 5 0 false none [] [] [])).1.runInterval = 0 := by
  refine ⟨rfl, ?_⟩
  exact (c6_run_interval_zero ["r"]
    (Plan.mk "r" 5 0 false none [] [] []) rfl).1

end DPT
